import Mathlib

/-!
Calc_go: tokenizer, shunting-yard converter and RPN evaluator.

A shallow embedding of `main.go` and the properties of its three stages.

Modelling conventions.

* A Go `string` is a Lean `String`; `for _, char := range expression` visits the
  code points `expression.data`.
* `token[0]` is the first *byte* of the token.  `byte0` computes the leading byte of
  the UTF-8 encoding of the first code point; indexing an empty token is the run-time
  panic `CalcError.indexOutOfRange`.
* A `rune` / `byte` value is a `Nat`.
* The two Go slices used as stacks (`stack` in `shuntingYard` and in `evaluateRPN`)
  are lists whose head is the top of the stack, i.e. the last element of the slice.
  `output` and `tokens` keep the slice order (`append` is `++ [x]`).
* `float64` and `strconv.ParseFloat` are not defined in the repository; they are taken
  as a parameter `Float64Ops F`.
-/

namespace CalcGo

/-! ## Errors -/

/-- The error values that `Calc` can return, one constructor per `errors.New` message,
plus the error of `strconv.ParseFloat` and the run-time panic of `token[0]`. -/
inductive CalcError where
  | emptyExpression
  | mismatchedParentheses
  | invalidToken (token : String)
  | identifiersNotSupported
  | parseFloatError (token : String)
  | invalidRPN
  | divisionByZero
  | unknownOperator (token : String)
  | invalidTokenInRPN (token : String)
  | indexOutOfRange
  deriving DecidableEq, Repr

deriving instance DecidableEq for Except

/-! ## Character and token classification -/

/-- Go `isOperator`. -/
def isOperator (token : String) : Bool :=
  token == "+" || token == "-" || token == "*" || token == "/"

/-- Go `isIdentifier`, on the numeric value of the rune. -/
def isIdentifier (char : Nat) : Bool :=
  'a'.toNat ≤ char && char ≤ 'z'.toNat

/-- Go `isDigit`, on the numeric value of the rune. -/
def isDigit (char : Nat) : Bool :=
  ('0'.toNat ≤ char && char ≤ '9'.toNat) || char == '.'.toNat

/-- Go `precedence`. -/
def precedence (op : String) : Nat :=
  if op = "+" ∨ op = "-" then 1
  else if op = "*" ∨ op = "/" then 2
  else 0

/-- Leading byte of the UTF-8 encoding of a code point. -/
def utf8Lead (c : Char) : Nat :=
  if c.toNat < 0x80 then c.toNat
  else if c.toNat < 0x800 then 0xC0 + c.toNat / 0x40
  else if c.toNat < 0x10000 then 0xE0 + c.toNat / 0x1000
  else 0xF0 + c.toNat / 0x40000

/-- The Go expression `rune(token[0])`: `none` is the index-out-of-range panic. -/
def byte0 (token : String) : Option Nat :=
  match token.data with
  | [] => none
  | c :: _ => some (utf8Lead c)

/-! ## `tokenize` -/

/-- Body of the `for _, char := range expression` loop of `tokenize`, with the final
flush; `tokens` and `current` are the loop variables.  `return nil` is `[]`. -/
def tokenizeLoop : List Char → List String → List Char → List String
  | [], tokens, current =>
    if current.length > 0 then tokens ++ [String.mk current] else tokens
  | char :: rest, tokens, current =>
    if char = ' ' then tokenizeLoop rest tokens current
    else if isOperator (String.singleton char) || char = '(' || char = ')' then
      if current.length > 0 then
        tokenizeLoop rest (tokens ++ [String.mk current] ++ [String.singleton char]) []
      else
        tokenizeLoop rest (tokens ++ [String.singleton char]) current
    else if isIdentifier char.toNat || isDigit char.toNat || char = '.' then
      tokenizeLoop rest tokens (current ++ [char])
    else []

/-- Go `tokenize`. -/
def tokenize (expression : String) : List String :=
  tokenizeLoop expression.data [] []

/-! ## `shuntingYard` -/

/-- The loop `for len(stack) > 0 && stack[len(stack)-1] != "("` of the `")"` branch. -/
def popToParen : List String → List String → List String × List String
  | output, [] => (output, [])
  | output, top :: stack =>
    if top ≠ "(" then popToParen (output ++ [top]) stack else (output, top :: stack)

/-- The loop `for len(stack) > 0 && precedence(stack[len(stack)-1]) >= precedence(token)`
of the operator branch. -/
def popHigher (token : String) : List String → List String → List String × List String
  | output, [] => (output, [])
  | output, top :: stack =>
    if precedence top ≥ precedence token then popHigher token (output ++ [top]) stack
    else (output, top :: stack)

/-- One iteration of the `for _, token := range tokens` loop of `shuntingYard`, on the
loop state `(output, stack)`. -/
def shuntingStep (token : String) (output stack : List String) :
    Except CalcError (List String × List String) :=
  match byte0 token with
  | none => .error .indexOutOfRange
  | some b =>
    if isIdentifier b || isDigit b then .ok (output ++ [token], stack)
    else if token = "(" then .ok (output, token :: stack)
    else if token = ")" then
      match popToParen output stack with
      | (_, []) => .error .mismatchedParentheses
      | (output, _ :: stack) => .ok (output, stack)
    else if isOperator token then
      match popHigher token output stack with
      | (output, stack) => .ok (output, token :: stack)
    else .error (.invalidToken token)

/-- The final loop `for len(stack) > 0` of `shuntingYard`. -/
def drainStack : List String → List String → Except CalcError (List String)
  | output, [] => .ok output
  | output, top :: stack =>
    if top = "(" then .error .mismatchedParentheses
    else drainStack (output ++ [top]) stack

/-- The main loop of `shuntingYard` followed by the final loop. -/
def shuntingLoop : List String → List String → List String → Except CalcError (List String)
  | [], output, stack => drainStack output stack
  | token :: rest, output, stack =>
    match shuntingStep token output stack with
    | .error e => .error e
    | .ok (output, stack) => shuntingLoop rest output stack

/-- Go `shuntingYard`. -/
def shuntingYard (tokens : List String) : Except CalcError (List String) :=
  shuntingLoop tokens [] []

/-! ## `evaluateRPN` -/

/-- The `float64` operations used by `evaluateRPN`: the four arithmetic operators, the
comparison `b == 0`, and `strconv.ParseFloat(token, 64)` (`none` when it returns an
error). -/
structure Float64Ops (F : Type) where
  add : F → F → F
  sub : F → F → F
  mul : F → F → F
  div : F → F → F
  eqZero : F → Bool
  parseFloat : String → Option F

/-- One iteration of the `for _, token := range rpn` loop of `evaluateRPN`. -/
def rpnStep {F : Type} (fl : Float64Ops F) (token : String) (stack : List F) :
    Except CalcError (List F) :=
  match byte0 token with
  | none => .error .indexOutOfRange
  | some c =>
    if isIdentifier c then .error .identifiersNotSupported
    else if isDigit c then
      match fl.parseFloat token with
      | none => .error (.parseFloatError token)
      | some num => .ok (num :: stack)
    else if isOperator token then
      match stack with
      | b :: a :: stack =>
        if token = "+" then .ok (fl.add a b :: stack)
        else if token = "-" then .ok (fl.sub a b :: stack)
        else if token = "*" then .ok (fl.mul a b :: stack)
        else if token = "/" then
          if fl.eqZero b then .error .divisionByZero
          else .ok (fl.div a b :: stack)
        else .error (.unknownOperator token)
      | _ => .error .invalidRPN
    else .error (.invalidTokenInRPN token)

/-- The `for _, token := range rpn` loop of `evaluateRPN`, returning the final stack. -/
def rpnLoop {F : Type} (fl : Float64Ops F) : List String → List F → Except CalcError (List F)
  | [], stack => .ok stack
  | token :: rest, stack =>
    match rpnStep fl token stack with
    | .error e => .error e
    | .ok stack => rpnLoop fl rest stack

/-- Go `evaluateRPN`. -/
def evaluateRPN {F : Type} (fl : Float64Ops F) (rpn : List String) : Except CalcError F :=
  match rpnLoop fl rpn [] with
  | .error e => .error e
  | .ok [v] => .ok v
  | .ok _ => .error .invalidRPN

/-! ## `Calc` -/

/-- Go `Calc`. -/
def Calc {F : Type} (fl : Float64Ops F) (expression : String) : Except CalcError F :=
  if (tokenize expression).length = 0 then .error .emptyExpression
  else
    match shuntingYard (tokenize expression) with
    | .error e => .error e
    | .ok rpn => evaluateRPN fl rpn

/-! ## Expression trees and the infix grammar -/

/-- The four binary operators. -/
inductive BinOp where
  | plus
  | minus
  | times
  | divide
  deriving DecidableEq, Repr

/-- The token of an operator. -/
def BinOp.token : BinOp → String
  | .plus => "+"
  | .minus => "-"
  | .times => "*"
  | .divide => "/"

/-- The operators of the production `E -> E (+|-) T`. -/
def BinOp.isAdditive : BinOp → Bool
  | .plus => true
  | .minus => true
  | _ => false

/-- The operators of the production `T -> T (*|/) F`. -/
def BinOp.isMultiplicative : BinOp → Bool
  | .times => true
  | .divide => true
  | _ => false

/-- Parse tree of an expression: operand tokens at the leaves, operators inside.
Parentheses are not recorded. -/
inductive Tree where
  | leaf (token : String)
  | node (op : BinOp) (left right : Tree)
  deriving DecidableEq, Repr

/-- Post-order (postfix) token sequence of a tree. -/
def Tree.postorder : Tree → List String
  | .leaf token => [token]
  | .node op left right => left.postorder ++ right.postorder ++ [op.token]

/-- A character that starts an operand: a digit, `'.'` or a lowercase letter. -/
def isOperandStart (c : Char) : Bool :=
  ('0'.toNat ≤ c.toNat && c.toNat ≤ '9'.toNat) || c = '.' ||
    ('a'.toNat ≤ c.toNat && c.toNat ≤ 'z'.toNat)

/-- An operand token: a token starting with a digit, `'.'` or a lowercase letter. -/
def isOperandToken (token : String) : Bool :=
  match token.data with
  | [] => false
  | c :: _ => isOperandStart c

/-- Nonterminals of the grammar `E -> E (+|-) T | T`, `T -> T (*|/) F | F`,
`F -> operand | ( E )`. -/
inductive Level where
  | expr
  | term
  | factor
  deriving DecidableEq, Repr

/-- Binding strength of what a nonterminal derives at its top. -/
def Level.prec : Level → Nat
  | .expr => 1
  | .term => 2
  | .factor => 3

/-- `Derives lvl tokens tree`: the nonterminal `lvl` generates the infix token
sequence `tokens`, with parse tree `tree`. -/
inductive Derives : Level → List String → Tree → Prop where
  | operand (token : String) (h : isOperandToken token = true) :
      Derives .factor [token] (.leaf token)
  | paren {tokens : List String} {tree : Tree} (h : Derives .expr tokens tree) :
      Derives .factor ("(" :: tokens ++ [")"]) tree
  | ofFactor {tokens : List String} {tree : Tree} (h : Derives .factor tokens tree) :
      Derives .term tokens tree
  | mulDiv {tokens₁ tokens₂ : List String} {left right : Tree} (op : BinOp)
      (hop : op.isMultiplicative = true)
      (h₁ : Derives .term tokens₁ left) (h₂ : Derives .factor tokens₂ right) :
      Derives .term (tokens₁ ++ op.token :: tokens₂) (.node op left right)
  | ofTerm {tokens : List String} {tree : Tree} (h : Derives .term tokens tree) :
      Derives .expr tokens tree
  | addSub {tokens₁ tokens₂ : List String} {left right : Tree} (op : BinOp)
      (hop : op.isAdditive = true)
      (h₁ : Derives .expr tokens₁ left) (h₂ : Derives .term tokens₂ right) :
      Derives .expr (tokens₁ ++ op.token :: tokens₂) (.node op left right)

/-! ## Auxiliary predicates -/

/-- The stack below the operators of the current operand run: empty, or topped by an
entry of precedence lower than `p`. -/
def LowTop (p : Nat) (stack : List String) : Prop :=
  ∀ top ∈ stack.head?, precedence top < p


/-! ## Reference semantics of expression trees -/

/-- The `float64` operation that `evaluateRPN` applies for an operator: `a op b`. -/
def BinOp.apply {F : Type} (fl : Float64Ops F) : BinOp → F → F → F
  | .plus, a, b => fl.add a b
  | .minus, a, b => fl.sub a b
  | .times, a, b => fl.mul a b
  | .divide, a, b => fl.div a b

/-- Recursive value of a tree: a leaf is parsed by `strconv.ParseFloat`, a node
`op left right` is `a op b` for the values `a` of `left` and `b` of `right`.
`none` only when a leaf does not parse. -/
def Tree.value {F : Type} (fl : Float64Ops F) : Tree → Option F
  | .leaf token => fl.parseFloat token
  | .node op left right =>
    match left.value fl, right.value fl with
    | some a, some b => some (op.apply fl a b)
    | _, _ => none

/-- Some division of the tree has a divisor (the value of its right operand) equal to
zero. -/
def Tree.divByZero {F : Type} (fl : Float64Ops F) : Tree → Bool
  | .leaf _ => false
  | .node op left right =>
    left.divByZero fl || right.divByZero fl ||
      (op == .divide && (match right.value fl with
        | some b => fl.eqZero b
        | none => false))

/-- A token that starts like a number: with a digit or `'.'`. -/
def isNumberToken (token : String) : Bool :=
  match token.data with
  | [] => false
  | c :: _ => ('0'.toNat ≤ c.toNat && c.toNat ≤ '9'.toNat) || c = '.'

/-- A well-formed number-literal token: it starts like a number and
`strconv.ParseFloat` accepts it. -/
def WellFormedNumber {F : Type} (fl : Float64Ops F) (token : String) : Prop :=
  isNumberToken token = true ∧ (fl.parseFloat token).isSome = true

/-- Every leaf of the tree is a well-formed number-literal token. -/
def Tree.NumericLeaves {F : Type} (fl : Float64Ops F) : Tree → Prop
  | .leaf token => WellFormedNumber fl token
  | .node _ left right => left.NumericLeaves fl ∧ right.NumericLeaves fl

/-! ## Exactness of `float64` on small integers -/

/-- Decimal value of a string of digits. -/
def decimalValue (digits : List Char) : Nat :=
  digits.foldl (fun n c => 10 * n + (c.toNat - '0'.toNat)) 0

/-- A decimal digit character. -/
def isDecimalDigit (c : Char) : Bool :=
  '0'.toNat ≤ c.toNat && c.toNat ≤ '9'.toNat

/-- Facts about IEEE-754 binary64 arithmetic and `strconv.ParseFloat` used for the
concrete examples: with `ofInt` the conversion `float64(n)`, integers of magnitude at
most `2^53` are represented exactly and injectively, a string of at most 15 decimal
digits parses to its value, and `+`, `-`, `*`, `/` are exact when the exact result is
such an integer (a zero product or quotient is excluded, since its sign bit depends on
the operands). -/
structure ExactOnIntegers {F : Type} (fl : Float64Ops F) (ofInt : Int → F) : Prop where
  parse_digits : ∀ digits : List Char, digits ≠ [] → digits.length ≤ 15 →
    (∀ c ∈ digits, isDecimalDigit c = true) →
    fl.parseFloat (String.mk digits) = some (ofInt (decimalValue digits))
  add_exact : ∀ a b : Int, |a| ≤ 2 ^ 53 → |b| ≤ 2 ^ 53 → |a + b| ≤ 2 ^ 53 →
    fl.add (ofInt a) (ofInt b) = ofInt (a + b)
  sub_exact : ∀ a b : Int, |a| ≤ 2 ^ 53 → |b| ≤ 2 ^ 53 → |a - b| ≤ 2 ^ 53 →
    fl.sub (ofInt a) (ofInt b) = ofInt (a - b)
  mul_exact : ∀ a b : Int, |a| ≤ 2 ^ 53 → |b| ≤ 2 ^ 53 → |a * b| ≤ 2 ^ 53 →
    a ≠ 0 → b ≠ 0 → fl.mul (ofInt a) (ofInt b) = ofInt (a * b)
  div_exact : ∀ q b : Int, |q * b| ≤ 2 ^ 53 → q ≠ 0 → b ≠ 0 →
    fl.div (ofInt (q * b)) (ofInt b) = ofInt q
  eqZero_ofInt : ∀ a : Int, |a| ≤ 2 ^ 53 → fl.eqZero (ofInt a) = decide (a = 0)
  ofInt_injective : ∀ a b : Int, |a| ≤ 2 ^ 53 → |b| ≤ 2 ^ 53 → ofInt a = ofInt b → a = b

/-- Exact integer arithmetic as an instance of the `float64` interface: it satisfies
`ExactOnIntegers` with `ofInt = id`. -/
def integerOps : Float64Ops Int where
  add := fun a b => a + b
  sub := fun a b => a - b
  mul := fun a b => a * b
  div := fun a b => a / b
  eqZero := fun a => a == 0
  parseFloat := fun token =>
    if token.data ≠ [] ∧ token.data.all isDecimalDigit then
      some (decimalValue token.data : Int)
    else none

/-- The tree of `3 + 5 * (2 - 8)`. -/
def exampleTree : Tree :=
  .node .plus (.leaf "3") (.node .times (.leaf "5") (.node .minus (.leaf "2") (.leaf "8")))

/-! ## Parenthesis balance -/

/-- A token that is an operand, one of the four operators, `"("` or `")"`. -/
def isGrammarToken (token : String) : Bool :=
  isOperandToken token || isOperator token || token == "(" || token == ")"

/-- The parenthesis tokens are unbalanced: some prefix contains more `")"` than `"("`,
or the totals differ. -/
def Unbalanced (tokens : List String) : Prop :=
  (∃ p ∈ tokens.inits, p.count "(" < p.count ")") ∨ tokens.count "(" ≠ tokens.count ")"

instance (tokens : List String) : Decidable (Unbalanced tokens) := by
  unfold Unbalanced
  exact inferInstance

/-- Left-to-right scan of the parentheses starting at nesting depth `depth`: `true`
when the depth never drops below zero and ends at zero. -/
def parenScan : List String → Nat → Bool
  | [], depth => depth == 0
  | token :: rest, depth =>
    if token = "(" then parenScan rest (depth + 1)
    else if token = ")" then depth != 0 && parenScan rest (depth - 1)
    else parenScan rest depth

/-! ## Recognized characters -/

/-- A character of the recognized set: a space, `+`, `-`, `*`, `/`, `(`, `)`, a
lowercase letter `a`-`z`, a digit `0`-`9` or `'.'`. -/
def isRecognized (c : Char) : Bool :=
  c = ' ' || c = '+' || c = '-' || c = '*' || c = '/' || c = '(' || c = ')' ||
    ('a'.toNat ≤ c.toNat && c.toNat ≤ 'z'.toNat) ||
    ('0'.toNat ≤ c.toNat && c.toNat ≤ '9'.toNat) || c = '.'

/-! ## Identifier tokens -/

/-- A token whose first character is a lowercase letter. -/
def startsWithLower (token : String) : Bool :=
  match token.data with
  | [] => false
  | c :: _ => 'a'.toNat ≤ c.toNat && c.toNat ≤ 'z'.toNat

/-! ## Loop invariants of `shuntingYard` -/

/-- Invariant of the loop state of `shuntingYard`: the output holds no parenthesis and
the stack holds no `")"`. -/
def NoParens (output stack : List String) : Prop :=
  (∀ x ∈ output, x ≠ "(" ∧ x ≠ ")") ∧ ∀ x ∈ stack, x ≠ ")"

/-! ## Valid postfix order -/

/-- Left-to-right scan of a postfix sequence with `available` values at hand: an
operand (a token that `evaluateRPN` treats as identifier or number) adds a value, an
operator needs at least two values and leaves one in their place, any other token is
rejected.  The result is the number of values at the end. -/
def postfixScan : List String → Nat → Option Nat
  | [], available => some available
  | token :: rest, available =>
    match byte0 token with
    | none => none
    | some b =>
      if isIdentifier b || isDigit b then postfixScan rest (available + 1)
      else if isOperator token then
        if 2 ≤ available then postfixScan rest (available - 1) else none
      else none

/-- Valid postfix order: every operator finds at least two operands available and
exactly one value remains at the end. -/
def ValidRPN (tokens : List String) : Prop :=
  postfixScan tokens 0 = some 1

instance (tokens : List String) : Decidable (ValidRPN tokens) := by
  unfold ValidRPN
  exact inferInstance

/-! ## Shape of the tokens of `tokenize` -/

/-- A literal character: a lowercase letter, a digit or `'.'`. -/
def isLiteralChar (c : Char) : Bool :=
  ('a'.toNat ≤ c.toNat && c.toNat ≤ 'z'.toNat) ||
    ('0'.toNat ≤ c.toNat && c.toNat ≤ '9'.toNat) || c = '.'

/-- An operator or parenthesis character. -/
def isSymbolChar (c : Char) : Bool :=
  c = '+' || c = '-' || c = '*' || c = '/' || c = '(' || c = ')'

/-- One of the single-character tokens `"+"`, `"-"`, `"*"`, `"/"`, `"("`, `")"`. -/
def isSymbolToken (token : String) : Bool :=
  token == "+" || token == "-" || token == "*" || token == "/" || token == "(" ||
    token == ")"

/-- A literal token: a non-empty string made only of literal characters. -/
def isLiteralToken (token : String) : Bool :=
  !token.data.isEmpty && token.data.all isLiteralChar

/-- The input with all space characters removed. -/
def stripSpaces (expression : String) : String :=
  String.mk (expression.data.filter (fun c => c ≠ ' '))

/-- Concatenation of a token sequence, as a list of characters. -/
def concatTokens (tokens : List String) : List Char :=
  (tokens.map String.data).flatten

/-- No two adjacent tokens are both literal tokens: of any two neighbours at least one
is an operator or parenthesis token. -/
def Separated (tokens : List String) : Prop :=
  List.Chain' (fun a b => isSymbolToken a = true ∨ isSymbolToken b = true) tokens

/-! ## Token kinds of the data model -/

/-- A number literal of the data model: a non-empty string of digits with at most one
decimal point and no letters. -/
def isNumberLiteral (token : String) : Bool :=
  !token.data.isEmpty && token.data.all (fun c => isDecimalDigit c || c = '.') &&
    decide (token.data.count '.' ≤ 1)

/-- An identifier of the data model: exactly one lowercase letter. -/
def isLetterIdentifier (token : String) : Bool :=
  match token.data with
  | [c] => 'a'.toNat ≤ c.toNat && c.toNat ≤ 'z'.toNat
  | _ => false

/-! ## Parenthesis tokens -/

/-- A parenthesis token. -/
def isParen (token : String) : Bool :=
  token == "(" || token == ")"

/-! ## Counting condition on postfix sequences -/

/-- No division is applied to a zero divisor: whenever the run of `evaluateRPN`
reaches a `"/"` token with at least two values on the stack, the most recently pushed
value `b` does not satisfy `b == 0`. -/
def NoZeroDivision {F : Type} (fl : Float64Ops F) (rpn : List String) : Prop :=
  ∀ (pre rest : List String) (a b : F) (stack : List F),
    rpn = pre ++ "/" :: rest → rpnLoop fl pre [] = .ok (b :: a :: stack) →
    fl.eqZero b = false

/-- Every prefix of the sequence, that is every non-empty initial segment, contains
strictly more number tokens than operator tokens. -/
def NonemptyPrefixMoreNumbers (rpn : List String) : Prop :=
  ∀ p ∈ rpn.inits, p ≠ [] → p.countP isOperator < p.countP isNumberToken

/-- The whole sequence contains exactly one more number token than operator tokens. -/
def OneMoreNumber (rpn : List String) : Prop :=
  rpn.countP isNumberToken = rpn.countP isOperator + 1

/-! ## Basic facts about tokens -/

theorem byte0_of_operand {token : String} (h : isOperandToken token = true) :
    ∃ b, byte0 token = some b ∧ (isIdentifier b || isDigit b) = true := by
  unfold isOperandToken at h
  unfold byte0
  cases hd : token.data with
  | nil => simp [hd] at h
  | cons c cs =>
    simp only [hd] at h
    refine ⟨utf8Lead c, rfl, ?_⟩
    have hc : c.toNat < 0x80 := by
      simp only [isOperandStart, Bool.or_eq_true, Bool.and_eq_true, decide_eq_true_eq] at h
      rcases h with (h | h) | h
      · have : '9'.toNat = 57 := rfl
        omega
      · subst h; decide
      · have : 'z'.toNat = 122 := rfl
        omega
    have hl : utf8Lead c = c.toNat := by simp [utf8Lead, hc]
    rw [hl]
    simp only [isOperandStart, Bool.or_eq_true, Bool.and_eq_true, decide_eq_true_eq] at h
    simp only [isIdentifier, isDigit, Bool.or_eq_true, Bool.and_eq_true, decide_eq_true_eq,
      beq_iff_eq]
    rcases h with (h | h) | h
    · exact Or.inr (Or.inl h)
    · subst h; exact Or.inr (Or.inr rfl)
    · exact Or.inl h

theorem shuntingStep_operand {token : String} (h : isOperandToken token = true)
    (output stack : List String) :
    shuntingStep token output stack = .ok (output ++ [token], stack) := by
  obtain ⟨b, hb, hc⟩ := byte0_of_operand h
  simp [shuntingStep, hb, hc]

theorem shuntingLoop_operand {token : String} (h : isOperandToken token = true)
    (rest output stack : List String) :
    shuntingLoop (token :: rest) output stack = shuntingLoop rest (output ++ [token]) stack := by
  simp [shuntingLoop, shuntingStep_operand h]

theorem shuntingLoop_lparen (rest output stack : List String) :
    shuntingLoop ("(" :: rest) output stack = shuntingLoop rest output ("(" :: stack) := rfl


theorem popToParen_append (ops : List String) (h : ∀ x ∈ ops, x ≠ "(")
    (output stack : List String) :
    popToParen output (ops ++ "(" :: stack) = (output ++ ops, "(" :: stack) := by
  induction ops generalizing output with
  | nil => simp [popToParen]
  | cons x xs ih =>
    have hx : x ≠ "(" := h x (List.mem_cons_self _ _)
    have hxs : ∀ y ∈ xs, y ≠ "(" := fun y hy => h y (List.mem_cons_of_mem _ hy)
    simp [popToParen, hx, ih hxs]

theorem shuntingLoop_rparen (ops : List String) (h : ∀ x ∈ ops, x ≠ "(")
    (rest output stack : List String) :
    shuntingLoop (")" :: rest) output (ops ++ "(" :: stack)
      = shuntingLoop rest (output ++ ops) stack := by
  have hs : shuntingStep ")" output (ops ++ "(" :: stack) = .ok (output ++ ops, stack) := by
    have hb : byte0 ")" = some 41 := rfl
    simp [shuntingStep, hb, isIdentifier, isDigit, popToParen_append ops h]
  simp [shuntingLoop, hs]

theorem popHigher_append (token : String) (ops : List String)
    (h : ∀ x ∈ ops, precedence token ≤ precedence x)
    (output stack : List String) (hst : LowTop (precedence token) stack) :
    popHigher token output (ops ++ stack) = (output ++ ops, stack) := by
  induction ops generalizing output with
  | nil =>
    cases stack with
    | nil => simp [popHigher]
    | cons top st =>
      have : precedence top < precedence token := hst top (by simp)
      simp [popHigher, this]
  | cons x xs ih =>
    have hx : precedence token ≤ precedence x := h x (List.mem_cons_self _ _)
    have hxs : ∀ y ∈ xs, precedence token ≤ precedence y :=
      fun y hy => h y (List.mem_cons_of_mem _ hy)
    simp [popHigher, hx, ih hxs]

theorem shuntingStep_binop (op : BinOp) (output stack : List String) :
    shuntingStep op.token output stack
      = .ok ((popHigher op.token output stack).1, op.token :: (popHigher op.token output stack).2) := by
  cases op <;> rfl

theorem shuntingLoop_binop (op : BinOp) (ops : List String)
    (h : ∀ x ∈ ops, precedence op.token ≤ precedence x)
    (rest output stack : List String) (hst : LowTop (precedence op.token) stack) :
    shuntingLoop (op.token :: rest) output (ops ++ stack)
      = shuntingLoop rest (output ++ ops) (op.token :: stack) := by
  simp [shuntingLoop, shuntingStep_binop, popHigher_append op.token ops h output stack hst]

theorem drainStack_ops (ops : List String) (h : ∀ x ∈ ops, x ≠ "(") (output : List String) :
    drainStack output ops = .ok (output ++ ops) := by
  induction ops generalizing output with
  | nil => simp [drainStack]
  | cons x xs ih =>
    have hx : x ≠ "(" := h x (List.mem_cons_self _ _)
    have hxs : ∀ y ∈ xs, y ≠ "(" := fun y hy => h y (List.mem_cons_of_mem _ hy)
    simp [drainStack, hx, ih hxs]

theorem ne_lparen_of_precedence {x : String} {p : Nat} (hp : 0 < p) (h : p ≤ precedence x) :
    x ≠ "(" := by
  rintro rfl
  have : precedence "(" = 0 := rfl
  omega

theorem precedence_le_two (x : String) : precedence x ≤ 2 := by
  unfold precedence
  split_ifs <;> omega

theorem precedence_additive {op : BinOp} (h : op.isAdditive = true) :
    precedence op.token = 1 := by
  cases op <;> first | rfl | simp [BinOp.isAdditive] at h

theorem precedence_multiplicative {op : BinOp} (h : op.isMultiplicative = true) :
    precedence op.token = 2 := by
  cases op <;> first | rfl | simp [BinOp.isMultiplicative] at h


/-- Invariant of `shuntingYard` on a derived phrase: consuming the tokens of a phrase
of level `lvl` from a state whose stack top binds weaker than `lvl` appends a prefix of
the postorder to the output and leaves the remaining operators on the stack. -/
theorem shuntingLoop_derives {lvl : Level} {tokens : List String} {tree : Tree}
    (h : Derives lvl tokens tree) :
    ∀ (rest output stack : List String), LowTop lvl.prec stack →
      ∃ out ops, out ++ ops = tree.postorder ∧
        (∀ x ∈ ops, lvl.prec ≤ precedence x) ∧
        shuntingLoop (tokens ++ rest) output stack
          = shuntingLoop rest (output ++ out) (ops ++ stack) := by
  induction h with
  | operand token htok =>
    intro rest output stack _
    exact ⟨[token], [], rfl, by simp, by simp [shuntingLoop_operand htok]⟩
  | @paren tokens tree _ ih =>
    intro rest output stack _
    obtain ⟨out, ops, hpost, hops, hrun⟩ :=
      ih ([")"] ++ rest) output ("(" :: stack) (by intro top htop; simp at htop; subst htop; decide)
    refine ⟨out ++ ops, [], by simpa using hpost, by simp, ?_⟩
    have hne : ∀ x ∈ ops, x ≠ "(" := fun x hx =>
      ne_lparen_of_precedence (by decide) (hops x hx)
    have : ("(" :: tokens ++ [")"]) ++ rest = "(" :: (tokens ++ ([")"] ++ rest)) := by simp
    rw [this, shuntingLoop_lparen, hrun]
    simp only [List.singleton_append]
    rw [shuntingLoop_rparen ops hne]
    simp
  | ofFactor _ ih =>
    intro rest output stack _
    obtain ⟨out, ops, hpost, hops, hrun⟩ :=
      ih rest output stack (fun top _ => Nat.lt_succ_of_le (precedence_le_two top))
    exact ⟨out, ops, hpost, fun x hx => Nat.le_trans (by decide) (hops x hx), hrun⟩
  | @mulDiv tokens₁ tokens₂ left right op hop _ _ ih₁ ih₂ =>
    intro rest output stack hst
    have hp := precedence_multiplicative hop
    obtain ⟨out₁, ops₁, hpost₁, hops₁, hrun₁⟩ := ih₁ (op.token :: tokens₂ ++ rest) output stack hst
    obtain ⟨out₂, ops₂, hpost₂, hops₂, hrun₂⟩ :=
      ih₂ rest (output ++ out₁ ++ ops₁) (op.token :: stack)
        (fun top _ => Nat.lt_succ_of_le (precedence_le_two top))
    have hnil : ops₂ = [] := by
      cases ops₂ with
      | nil => rfl
      | cons x xs =>
        have h3 : 3 ≤ precedence x := hops₂ x (List.mem_cons_self _ _)
        have := precedence_le_two x
        omega
    subst hnil
    refine ⟨out₁ ++ ops₁ ++ out₂, [op.token], ?_, ?_, ?_⟩
    · simp only [Tree.postorder, ← hpost₁, ← hpost₂]; simp
    · intro x hx
      simp only [List.mem_singleton] at hx
      subst hx
      simp [Level.prec, hp]
    · have : (tokens₁ ++ op.token :: tokens₂) ++ rest = tokens₁ ++ (op.token :: tokens₂ ++ rest) := by
        simp
      rw [this, hrun₁]
      have hle : ∀ x ∈ ops₁, precedence op.token ≤ precedence x := by
        intro x hx; rw [hp]; exact hops₁ x hx
      have hlow : LowTop (precedence op.token) stack := by rw [hp]; exact hst
      rw [List.cons_append, shuntingLoop_binop op ops₁ hle _ _ _ hlow, ← List.append_assoc, hrun₂]
      simp
  | ofTerm _ ih =>
    intro rest output stack hst
    obtain ⟨out, ops, hpost, hops, hrun⟩ :=
      ih rest output stack (fun top htop => Nat.lt_succ_of_lt (hst top htop))
    exact ⟨out, ops, hpost, fun x hx => Nat.le_trans (by decide) (hops x hx), hrun⟩
  | @addSub tokens₁ tokens₂ left right op hop _ _ ih₁ ih₂ =>
    intro rest output stack hst
    have hp := precedence_additive hop
    obtain ⟨out₁, ops₁, hpost₁, hops₁, hrun₁⟩ := ih₁ (op.token :: tokens₂ ++ rest) output stack hst
    obtain ⟨out₂, ops₂, hpost₂, hops₂, hrun₂⟩ :=
      ih₂ rest (output ++ out₁ ++ ops₁) (op.token :: stack)
        (by intro top htop; simp at htop; subst htop; rw [hp]; decide)
    refine ⟨out₁ ++ ops₁ ++ out₂, ops₂ ++ [op.token], ?_, ?_, ?_⟩
    · simp only [Tree.postorder, ← hpost₁, ← hpost₂]; simp
    · intro x hx
      simp only [List.mem_append, List.mem_singleton] at hx
      rcases hx with hx | hx
      · exact Nat.le_trans (by decide) (hops₂ x hx)
      · subst hx; simp [Level.prec, hp]
    · have : (tokens₁ ++ op.token :: tokens₂) ++ rest = tokens₁ ++ (op.token :: tokens₂ ++ rest) := by
        simp
      rw [this, hrun₁]
      have hle : ∀ x ∈ ops₁, precedence op.token ≤ precedence x := by
        intro x hx; rw [hp]; exact hops₁ x hx
      have hlow : LowTop (precedence op.token) stack := by rw [hp]; exact hst
      rw [List.cons_append, shuntingLoop_binop op ops₁ hle _ _ _ hlow, ← List.append_assoc, hrun₂]
      simp

/-- Claim C1. For every infix token sequence generated from `E` by the grammar
`E -> E (+|-) T | T`, `T -> T (*|/) F | F`, `F -> operand | ( E )`, `shuntingYard`
succeeds and returns exactly the post-order token sequence of the parse tree. -/
theorem shuntingYard_derives (tokens : List String) (tree : Tree)
    (h : Derives .expr tokens tree) :
    shuntingYard tokens = .ok tree.postorder := by
  obtain ⟨out, ops, hpost, hops, hrun⟩ :=
    shuntingLoop_derives h [] [] [] (by intro top htop; simp at htop)
  have hne : ∀ x ∈ ops, x ≠ "(" := fun x hx =>
    ne_lparen_of_precedence (by decide) (hops x hx)
  unfold shuntingYard
  rw [List.append_nil] at hrun
  rw [hrun]
  simp [shuntingLoop, drainStack_ops ops hne, hpost]


theorem derives_example :
    Derives .expr ["3", "+", "5", "*", "(", "2", "-", "8", ")"] exampleTree :=
  Derives.addSub .plus rfl (.ofTerm (.ofFactor (.operand "3" rfl)))
    (.mulDiv .times rfl (.ofFactor (.operand "5" rfl))
      (.paren (.addSub .minus rfl (.ofTerm (.ofFactor (.operand "2" rfl)))
        (.ofFactor (.operand "8" rfl)))))

theorem shuntingYard_derives_witness :
    Derives .expr ["3", "+", "5", "*", "(", "2", "-", "8", ")"] exampleTree ∧
      shuntingYard ["3", "+", "5", "*", "(", "2", "-", "8", ")"]
        = .ok ["3", "5", "2", "8", "-", "*", "+"] :=
  ⟨derives_example, shuntingYard_derives _ _ derives_example⟩

/-! ## `evaluateRPN` on the postorder of a tree -/

theorem byte0_of_number {token : String} (h : isNumberToken token = true) :
    ∃ b, byte0 token = some b ∧ isIdentifier b = false ∧ isDigit b = true := by
  unfold isNumberToken at h
  unfold byte0
  cases hd : token.data with
  | nil => simp [hd] at h
  | cons c cs =>
    simp only [hd] at h
    refine ⟨utf8Lead c, rfl, ?_⟩
    have h9 : '9'.toNat = 57 := rfl
    have h0 : '0'.toNat = 48 := rfl
    have ha : 'a'.toNat = 97 := rfl
    have hdot : '.'.toNat = 46 := rfl
    simp only [Bool.or_eq_true, Bool.and_eq_true, decide_eq_true_eq] at h
    have hc : c.toNat < 0x80 := by
      rcases h with h | h
      · omega
      · subst h; decide
    have hl : utf8Lead c = c.toNat := by simp [utf8Lead, hc]
    rw [hl]
    rcases h with h | h
    · constructor
      · simp only [isIdentifier, Bool.and_eq_false_imp, decide_eq_true_eq, decide_eq_false_iff_not]
        omega
      · simp only [isDigit, Bool.or_eq_true, Bool.and_eq_true, decide_eq_true_eq]
        exact Or.inl h
    · subst h; exact ⟨by decide, by decide⟩

theorem rpnLoop_number {F : Type} (fl : Float64Ops F) {token : String} {v : F}
    (hn : isNumberToken token = true) (hv : fl.parseFloat token = some v)
    (rest : List String) (stack : List F) :
    rpnLoop fl (token :: rest) stack = rpnLoop fl rest (v :: stack) := by
  obtain ⟨b, hb, hi, hd⟩ := byte0_of_number hn
  simp [rpnLoop, rpnStep, hb, hi, hd, hv]

theorem rpnStep_binop {F : Type} (fl : Float64Ops F) (op : BinOp) (a b : F) (stack : List F) :
    rpnStep fl op.token (b :: a :: stack)
      = if op = .divide ∧ fl.eqZero b = true then .error .divisionByZero
        else .ok (op.apply fl a b :: stack) := by
  have hp : byte0 "+" = some 43 := rfl
  have hm : byte0 "-" = some 45 := rfl
  have ht : byte0 "*" = some 42 := rfl
  have hd : byte0 "/" = some 47 := rfl
  cases op
  · simp [rpnStep, BinOp.token, BinOp.apply, hp, isIdentifier, isDigit, isOperator]
  · simp [rpnStep, BinOp.token, BinOp.apply, hm, isIdentifier, isDigit, isOperator]
  · simp [rpnStep, BinOp.token, BinOp.apply, ht, isIdentifier, isDigit, isOperator]
  · cases hz : fl.eqZero b <;>
      simp [rpnStep, BinOp.token, BinOp.apply, hd, isIdentifier, isDigit, isOperator, hz]

theorem rpnLoop_binop {F : Type} (fl : Float64Ops F) (op : BinOp) (a b : F)
    (rest : List String) (stack : List F) :
    rpnLoop fl (op.token :: rest) (b :: a :: stack)
      = if op = .divide ∧ fl.eqZero b = true then .error .divisionByZero
        else rpnLoop fl rest (op.apply fl a b :: stack) := by
  simp only [rpnLoop, rpnStep_binop]
  split_ifs <;> rfl

theorem value_of_numericLeaves {F : Type} (fl : Float64Ops F) (tree : Tree)
    (h : tree.NumericLeaves fl) : ∃ v, tree.value fl = some v := by
  induction tree with
  | leaf token =>
    obtain ⟨_, hp⟩ := h
    exact Option.isSome_iff_exists.mp hp
  | node op left right ihl ihr =>
    obtain ⟨a, ha⟩ := ihl h.1
    obtain ⟨b, hb⟩ := ihr h.2
    exact ⟨op.apply fl a b, by simp [Tree.value, ha, hb]⟩

theorem rpnLoop_postorder {F : Type} (fl : Float64Ops F) (tree : Tree)
    (h : tree.NumericLeaves fl) (v : F) (hv : tree.value fl = some v)
    (rest : List String) (stack : List F) :
    rpnLoop fl (tree.postorder ++ rest) stack
      = if tree.divByZero fl = true then .error .divisionByZero
        else rpnLoop fl rest (v :: stack) := by
  induction tree generalizing v rest stack with
  | leaf token =>
    simp only [Tree.value] at hv
    simp [Tree.postorder, Tree.divByZero, rpnLoop_number fl h.1 hv]
  | node op left right ihl ihr =>
    obtain ⟨a, ha⟩ := value_of_numericLeaves fl left h.1
    obtain ⟨b, hb⟩ := value_of_numericLeaves fl right h.2
    have hv' : v = op.apply fl a b := by
      simp [Tree.value, ha, hb] at hv
      exact hv.symm
    subst hv'
    have hsplit : (Tree.node op left right).postorder ++ rest
        = left.postorder ++ (right.postorder ++ (op.token :: rest)) := by
      simp [Tree.postorder]
    rw [hsplit, ihl h.1 a ha, ihr h.2 b hb, rpnLoop_binop]
    cases hl : left.divByZero fl <;> cases hr : right.divByZero fl <;>
      cases hz : fl.eqZero b <;> cases op <;> simp [Tree.divByZero, hl, hr, hb, hz]

/-- Claim C2. For a tree whose leaves are well-formed number-literal tokens,
`evaluateRPN` on the post-order token sequence returns the recursive value of the tree
when no division of the tree has a zero divisor, and the division-by-zero error
otherwise. -/
theorem evaluateRPN_postorder {F : Type} (fl : Float64Ops F) (tree : Tree)
    (h : tree.NumericLeaves fl) :
    ∃ v, tree.value fl = some v ∧
      evaluateRPN fl tree.postorder
        = if tree.divByZero fl = true then .error .divisionByZero else .ok v := by
  obtain ⟨v, hv⟩ := value_of_numericLeaves fl tree h
  refine ⟨v, hv, ?_⟩
  have hrun := rpnLoop_postorder fl tree h v hv [] []
  rw [List.append_nil] at hrun
  unfold evaluateRPN
  rw [hrun]
  split_ifs <;> simp [rpnLoop]

theorem evaluateRPN_postorder_witness :
    exampleTree.NumericLeaves integerOps ∧
      ∃ v, exampleTree.value integerOps = some v ∧
        evaluateRPN integerOps exampleTree.postorder
          = if exampleTree.divByZero integerOps = true then .error .divisionByZero else .ok v :=
  have hleaves : exampleTree.NumericLeaves integerOps :=
    ⟨⟨rfl, rfl⟩, ⟨rfl, rfl⟩, ⟨rfl, rfl⟩, ⟨rfl, rfl⟩⟩
  ⟨hleaves, evaluateRPN_postorder integerOps exampleTree hleaves⟩

/-! ## Concrete runs of `Calc` -/

theorem integerOps_exact : ExactOnIntegers integerOps id where
  parse_digits := by
    intro digits hne _ hall
    simpa [integerOps, hne] using hall
  add_exact := fun _ _ _ _ _ => rfl
  sub_exact := fun _ _ _ _ _ => rfl
  mul_exact := fun _ _ _ _ _ _ _ => rfl
  div_exact := fun q b _ _ hb => Int.mul_ediv_cancel q hb
  eqZero_ofInt := by
    intro a _
    exact Bool.eq_iff_iff.mpr (by simp [integerOps])
  ofInt_injective := fun _ _ _ _ h => h

theorem parseFloat_digit {F : Type} {fl : Float64Ops F} {ofInt : Int → F}
    (h : ExactOnIntegers fl ofInt) (c : Char) (hc : isDecimalDigit c = true) :
    fl.parseFloat (String.singleton c) = some (ofInt (c.toNat - '0'.toNat : Nat)) := by
  have := h.parse_digits [c] (by simp) (by simp) (by simpa using hc)
  simpa [decimalValue] using this

theorem rpnLoop_digit {F : Type} {fl : Float64Ops F} {ofInt : Int → F}
    (h : ExactOnIntegers fl ofInt) (c : Char) (hc : isDecimalDigit c = true)
    (rest : List String) (stack : List F) :
    rpnLoop fl (String.singleton c :: rest) stack
      = rpnLoop fl rest (ofInt (c.toNat - '0'.toNat : Nat) :: stack) := by
  apply rpnLoop_number fl _ (parseFloat_digit h c hc)
  simpa [isNumberToken, String.singleton, isDecimalDigit] using Or.inl hc

theorem evaluateRPN_example {F : Type} (fl : Float64Ops F) (ofInt : Int → F)
    (h : ExactOnIntegers fl ofInt) :
    evaluateRPN fl ["3", "5", "2", "8", "-", "*", "+"] = .ok (ofInt (-27)) := by
  have e1 : fl.sub (ofInt 2) (ofInt 8) = ofInt (-6) :=
    h.sub_exact 2 8 (by norm_num) (by norm_num) (by norm_num)
  have e2 : fl.mul (ofInt 5) (ofInt (-6)) = ofInt (-30) :=
    h.mul_exact 5 (-6) (by norm_num) (by norm_num) (by norm_num) (by decide) (by decide)
  have e3 : fl.add (ofInt 3) (ofInt (-30)) = ofInt (-27) :=
    h.add_exact 3 (-30) (by norm_num) (by norm_num) (by norm_num)
  have s1 := rpnLoop_digit h '3' rfl ["5", "2", "8", "-", "*", "+"] []
  have s2 := rpnLoop_digit h '5' rfl ["2", "8", "-", "*", "+"] [ofInt 3]
  have s3 := rpnLoop_digit h '2' rfl ["8", "-", "*", "+"] [ofInt 5, ofInt 3]
  have s4 := rpnLoop_digit h '8' rfl ["-", "*", "+"] [ofInt 2, ofInt 5, ofInt 3]
  have s5 := rpnLoop_binop fl .minus (ofInt 2) (ofInt 8) ["*", "+"] [ofInt 5, ofInt 3]
  have s6 := rpnLoop_binop fl .times (ofInt 5) (ofInt (-6)) ["+"] [ofInt 3]
  have s7 := rpnLoop_binop fl .plus (ofInt 3) (ofInt (-30)) [] []
  simp only [BinOp.token, BinOp.apply, e1, e2, e3, false_and, if_false, reduceCtorEq] at s5 s6 s7
  have hrun : rpnLoop fl ["3", "5", "2", "8", "-", "*", "+"] [] = .ok [ofInt (-27)] := by
    refine s1.trans (s2.trans (s3.trans (s4.trans (s5.trans (s6.trans (s7.trans ?_))))))
    rfl
  simp [evaluateRPN, hrun]

/-- Claim C3. `Calc("3 + 5 * (2 - 8)")` succeeds and returns -27: `tokenize` yields
`[3,+,5,*,(,2,-,8,)]`, `shuntingYard` yields `[3,5,2,8,-,*,+]`, and `evaluateRPN` of
that sequence is -27. -/
theorem Calc_main_example {F : Type} (fl : Float64Ops F) (ofInt : Int → F)
    (h : ExactOnIntegers fl ofInt) :
    tokenize "3 + 5 * (2 - 8)" = ["3", "+", "5", "*", "(", "2", "-", "8", ")"] ∧
      shuntingYard ["3", "+", "5", "*", "(", "2", "-", "8", ")"]
        = .ok ["3", "5", "2", "8", "-", "*", "+"] ∧
      evaluateRPN fl ["3", "5", "2", "8", "-", "*", "+"] = .ok (ofInt (-27)) ∧
      Calc fl "3 + 5 * (2 - 8)" = .ok (ofInt (-27)) := by
  have ht : tokenize "3 + 5 * (2 - 8)" = ["3", "+", "5", "*", "(", "2", "-", "8", ")"] := rfl
  have hs : shuntingYard ["3", "+", "5", "*", "(", "2", "-", "8", ")"]
      = .ok ["3", "5", "2", "8", "-", "*", "+"] := rfl
  refine ⟨ht, hs, evaluateRPN_example fl ofInt h, ?_⟩
  unfold Calc
  rw [ht, hs]
  exact evaluateRPN_example fl ofInt h

theorem Calc_main_example_witness :
    ExactOnIntegers integerOps id ∧
      tokenize "3 + 5 * (2 - 8)" = ["3", "+", "5", "*", "(", "2", "-", "8", ")"] ∧
      shuntingYard ["3", "+", "5", "*", "(", "2", "-", "8", ")"]
        = .ok ["3", "5", "2", "8", "-", "*", "+"] ∧
      evaluateRPN integerOps ["3", "5", "2", "8", "-", "*", "+"] = .ok (-27) ∧
      Calc integerOps "3 + 5 * (2 - 8)" = .ok (-27) :=
  ⟨integerOps_exact, Calc_main_example integerOps id integerOps_exact⟩

/-! ## Left associativity -/

theorem isOperator_iff_binop (token : String) :
    isOperator token = true ↔ ∃ op : BinOp, token = op.token := by
  constructor
  · intro h
    simp only [isOperator, Bool.or_eq_true, beq_iff_eq] at h
    rcases h with ((h | h) | h) | h
    · exact ⟨.plus, h⟩
    · exact ⟨.minus, h⟩
    · exact ⟨.times, h⟩
    · exact ⟨.divide, h⟩
  · rintro ⟨op, rfl⟩
    cases op <;> rfl

theorem precedence_binop_ne_lparen (op : BinOp) : op.token ≠ "(" := by
  cases op <;> decide

theorem shuntingYard_two_ops (a b c : String) (op₁ op₂ : BinOp)
    (ha : isOperandToken a = true) (hb : isOperandToken b = true)
    (hc : isOperandToken c = true)
    (hprec : precedence op₂.token ≤ precedence op₁.token) :
    shuntingYard [a, op₁.token, b, op₂.token, c] = .ok [a, b, op₁.token, c, op₂.token] := by
  have hlow : ∀ p, LowTop p [] := fun p top htop => by simp at htop
  have s2 := shuntingLoop_binop op₁ [] (by simp) [b, op₂.token, c] [a] [] (hlow _)
  have s4 := shuntingLoop_binop op₂ [op₁.token] (by simpa using hprec) [c] [a, b] [] (hlow _)
  simp only [List.nil_append, List.append_nil, List.singleton_append, List.cons_append] at s2 s4
  unfold shuntingYard
  rw [shuntingLoop_operand ha, List.nil_append, s2, shuntingLoop_operand hb,
    List.singleton_append, s4, shuntingLoop_operand hc]
  simp [shuntingLoop, drainStack, precedence_binop_ne_lparen]

theorem evaluateRPN_left_assoc_example {F : Type} (fl : Float64Ops F) (ofInt : Int → F)
    (h : ExactOnIntegers fl ofInt) :
    evaluateRPN fl ["8", "3", "-", "1", "-"] = .ok (ofInt 4) := by
  have e1 : fl.sub (ofInt 8) (ofInt 3) = ofInt 5 :=
    h.sub_exact 8 3 (by norm_num) (by norm_num) (by norm_num)
  have e2 : fl.sub (ofInt 5) (ofInt 1) = ofInt 4 :=
    h.sub_exact 5 1 (by norm_num) (by norm_num) (by norm_num)
  have s1 := rpnLoop_digit h '8' rfl ["3", "-", "1", "-"] []
  have s2 := rpnLoop_digit h '3' rfl ["-", "1", "-"] [ofInt 8]
  have s3 := rpnLoop_binop fl .minus (ofInt 8) (ofInt 3) ["1", "-"] []
  have s4 := rpnLoop_digit h '1' rfl ["-"] [ofInt 5]
  have s5 := rpnLoop_binop fl .minus (ofInt 5) (ofInt 1) [] []
  simp only [BinOp.token, BinOp.apply, e1, e2, false_and, if_false, reduceCtorEq] at s3 s5
  have hrun : rpnLoop fl ["8", "3", "-", "1", "-"] [] = .ok [ofInt 4] := by
    refine s1.trans (s2.trans (s3.trans (s4.trans (s5.trans ?_))))
    rfl
  simp [evaluateRPN, hrun]

/-- Claim C4. Same-precedence operators are left-associative: for operand tokens
`a`, `b`, `c` and operators `op1`, `op2` of equal precedence,
`shuntingYard([a, op1, b, op2, c]) = [a, b, op1, c, op2]`; in particular
`Calc("8-3-1")` returns 4, not 6. -/
theorem shuntingYard_left_assoc {F : Type} (fl : Float64Ops F) (ofInt : Int → F)
    (h : ExactOnIntegers fl ofInt) (a b c op1 op2 : String)
    (ha : isOperandToken a = true) (hb : isOperandToken b = true)
    (hc : isOperandToken c = true)
    (h1 : isOperator op1 = true) (h2 : isOperator op2 = true)
    (hprec : precedence op1 = precedence op2) :
    shuntingYard [a, op1, b, op2, c] = .ok [a, b, op1, c, op2] ∧
      Calc fl "8-3-1" = .ok (ofInt 4) ∧ Calc fl "8-3-1" ≠ .ok (ofInt 6) := by
  obtain ⟨o₁, rfl⟩ := (isOperator_iff_binop op1).mp h1
  obtain ⟨o₂, rfl⟩ := (isOperator_iff_binop op2).mp h2
  have hcalc : Calc fl "8-3-1" = .ok (ofInt 4) := by
    have ht : tokenize "8-3-1" = ["8", "-", "3", "-", "1"] := rfl
    have hs : shuntingYard ["8", "-", "3", "-", "1"] = .ok ["8", "3", "-", "1", "-"] := rfl
    unfold Calc
    rw [ht, hs]
    exact evaluateRPN_left_assoc_example fl ofInt h
  refine ⟨shuntingYard_two_ops a b c o₁ o₂ ha hb hc (le_of_eq hprec.symm), hcalc, ?_⟩
  rw [hcalc]
  intro heq
  have h46 : (4 : Int) = 6 :=
    h.ofInt_injective 4 6 (by norm_num) (by norm_num) (Except.ok.inj heq)
  exact absurd h46 (by decide)

theorem shuntingYard_left_assoc_witness :
    ExactOnIntegers integerOps id ∧
      shuntingYard ["8", "-", "3", "+", "1"] = .ok ["8", "3", "-", "1", "+"] ∧
      Calc integerOps "8-3-1" = .ok 4 ∧ Calc integerOps "8-3-1" ≠ .ok 6 :=
  ⟨integerOps_exact,
    shuntingYard_left_assoc integerOps id integerOps_exact "8" "3" "1" "-" "+"
      rfl rfl rfl rfl rfl rfl⟩

/-! ## Mismatched parentheses -/

theorem parenScan_false_iff (tokens : List String) (depth : Nat) :
    parenScan tokens depth = false ↔
      (∃ p ∈ tokens.inits, depth + p.count "(" < p.count ")") ∨
        depth + tokens.count "(" ≠ tokens.count ")" := by
  induction tokens generalizing depth with
  | nil => simp [parenScan]
  | cons t ts ih =>
    have hne : (")" : String) ≠ "(" := by decide
    by_cases h1 : t = "("
    · subst h1
      simp only [parenScan, if_true, ih, List.inits_cons, List.mem_cons, List.mem_map,
        List.count_cons_self, List.count_cons_of_ne hne]
      constructor
      · rintro (⟨p, hp, hlt⟩ | hne')
        · exact Or.inl ⟨"(" :: p, Or.inr ⟨p, hp, rfl⟩, by
            simp only [List.count_cons_self, List.count_cons_of_ne hne]; omega⟩
        · exact Or.inr (by omega)
      · rintro (⟨q, hq | ⟨p, hp, rfl⟩, hlt⟩ | hne')
        · subst hq; simp at hlt
        · refine Or.inl ⟨p, hp, ?_⟩
          simp only [List.count_cons_self, List.count_cons_of_ne hne] at hlt
          omega
        · exact Or.inr (by omega)
    · by_cases h2 : t = ")"
      · subst h2
        have hne2 : ("(" : String) ≠ ")" := by decide
        simp only [parenScan, if_neg hne, if_true, List.inits_cons, List.mem_cons, List.mem_map,
          List.count_cons_self, List.count_cons_of_ne hne2, Bool.and_eq_false_iff, ih]
        constructor
        · rintro (hd | ⟨p, hp, hlt⟩ | hne')
          · simp only [bne_eq_false_iff_eq] at hd
            subst hd
            exact Or.inl ⟨[")"], Or.inr ⟨[], by simp, rfl⟩, by decide⟩
          · exact Or.inl ⟨")" :: p, Or.inr ⟨p, hp, rfl⟩, by
              simp only [List.count_cons_self, List.count_cons_of_ne hne2]; omega⟩
          · by_cases hd : depth = 0
            · subst hd
              exact Or.inl ⟨[")"], Or.inr ⟨[], by simp, rfl⟩, by decide⟩
            · exact Or.inr (by omega)
        · rintro (⟨q, hq | ⟨p, hp, rfl⟩, hlt⟩ | hne')
          · subst hq; simp at hlt
          · simp only [List.count_cons_self, List.count_cons_of_ne hne2] at hlt
            by_cases hd : depth = 0
            · exact Or.inl (by simp [hd])
            · exact Or.inr (Or.inl ⟨p, hp, by omega⟩)
          · by_cases hd : depth = 0
            · exact Or.inl (by simp [hd])
            · exact Or.inr (Or.inr (by omega))
      · have h1' : ("(" : String) ≠ t := fun h => h1 h.symm
        have h2' : (")" : String) ≠ t := fun h => h2 h.symm
        simp only [parenScan, if_neg h1, if_neg h2, List.inits_cons, List.mem_cons, List.mem_map,
          List.count_cons_of_ne h1', List.count_cons_of_ne h2', ih]
        constructor
        · rintro (⟨p, hp, hlt⟩ | hne')
          · exact Or.inl ⟨t :: p, Or.inr ⟨p, hp, rfl⟩, by
              simp only [List.count_cons_of_ne h1', List.count_cons_of_ne h2']; omega⟩
          · exact Or.inr hne'
        · rintro (⟨q, hq | ⟨p, hp, rfl⟩, hlt⟩ | hne')
          · subst hq; simp at hlt
          · refine Or.inl ⟨p, hp, ?_⟩
            simp only [List.count_cons_of_ne h1', List.count_cons_of_ne h2'] at hlt
            omega
          · exact Or.inr hne'

theorem parenScan_zero_false_iff (tokens : List String) :
    parenScan tokens 0 = false ↔ Unbalanced tokens := by
  simpa [Unbalanced] using parenScan_false_iff tokens 0

theorem operand_not_special {token : String} (h : isOperandToken token = true) :
    token ≠ "(" ∧ token ≠ ")" ∧ isOperator token = false := by
  refine ⟨?_, ?_, ?_⟩
  · rintro rfl; exact absurd h (by decide)
  · rintro rfl; exact absurd h (by decide)
  · cases ho : isOperator token with
    | false => rfl
    | true =>
      obtain ⟨op, rfl⟩ := (isOperator_iff_binop token).mp ho
      cases op <;> exact absurd h (by decide)

theorem drainStack_eq (output stack : List String) :
    drainStack output stack
      = if stack.count "(" = 0 then .ok (output ++ stack) else .error .mismatchedParentheses := by
  induction stack generalizing output with
  | nil => simp [drainStack]
  | cons top st ih =>
    by_cases h : top = "("
    · subst h; simp [drainStack]
    · have h' : ("(" : String) ≠ top := fun e => h e.symm
      simp only [drainStack, if_neg h, ih, List.count_cons_of_ne h']
      split_ifs <;> simp

theorem popToParen_count (output stack : List String) :
    (stack.count "(" = 0 ∧ (popToParen output stack).2 = []) ∨
      ∃ out st, popToParen output stack = (out, "(" :: st) ∧
        st.count "(" + 1 = stack.count "(" := by
  induction stack generalizing output with
  | nil => exact Or.inl ⟨rfl, rfl⟩
  | cons top st ih =>
    by_cases h : top = "("
    · subst h
      exact Or.inr ⟨output, st, by simp [popToParen], by simp⟩
    · have h' : ("(" : String) ≠ top := fun e => h e.symm
      simp only [popToParen, ne_eq, h, not_false_eq_true, if_true, List.count_cons_of_ne h']
      exact ih (output ++ [top])

theorem popHigher_count (token : String) (hp : 0 < precedence token)
    (output stack : List String) :
    (popHigher token output stack).2.count "(" = stack.count "(" := by
  induction stack generalizing output with
  | nil => rfl
  | cons top st ih =>
    by_cases h : precedence top ≥ precedence token
    · have hne : top ≠ "(" := ne_lparen_of_precedence hp h
      have h' : ("(" : String) ≠ top := fun e => hne e.symm
      simp only [popHigher, h, if_true, List.count_cons_of_ne h']
      exact ih (output ++ [top])
    · simp [popHigher, h]

theorem precedence_binop_pos (op : BinOp) : 0 < precedence op.token := by
  cases op <;> decide

/-- The parenthesis error of `shuntingYard` is decided by the scan of the remaining
tokens from the number of `"("` on the stack. -/
theorem shuntingLoop_parenScan (tokens : List String)
    (h : ∀ t ∈ tokens, isGrammarToken t = true) (output stack : List String) :
    (parenScan tokens (stack.count "(") = true → ∃ out, shuntingLoop tokens output stack = .ok out) ∧
      (parenScan tokens (stack.count "(") = false →
        shuntingLoop tokens output stack = .error .mismatchedParentheses) := by
  induction tokens generalizing output stack with
  | nil =>
    simp only [parenScan, shuntingLoop, drainStack_eq, beq_iff_eq, beq_eq_false_iff_ne]
    constructor
    · intro h0; exact ⟨output ++ stack, by simp [h0]⟩
    · intro h0; simp [h0]
  | cons t ts ih =>
    have hts : ∀ t ∈ ts, isGrammarToken t = true := fun x hx => h x (List.mem_cons_of_mem _ hx)
    have ht := h t (List.mem_cons_self _ _)
    simp only [isGrammarToken, Bool.or_eq_true, beq_iff_eq] at ht
    rcases ht with ((hop | hop) | hl) | hr
    · obtain ⟨n1, n2, _⟩ := operand_not_special hop
      rw [shuntingLoop_operand hop]
      simp only [parenScan, if_neg n1, if_neg n2]
      exact ih hts _ _
    · obtain ⟨op, rfl⟩ := (isOperator_iff_binop t).mp hop
      have n1 : op.token ≠ "(" := precedence_binop_ne_lparen op
      have n2 : op.token ≠ ")" := by cases op <;> decide
      have hstep : shuntingLoop (op.token :: ts) output stack
          = shuntingLoop ts (popHigher op.token output stack).1
              (op.token :: (popHigher op.token output stack).2) := by
        simp [shuntingLoop, shuntingStep_binop]
      have hcount : (op.token :: (popHigher op.token output stack).2).count "("
          = stack.count "(" := by
        rw [List.count_cons_of_ne (fun e => n1 e.symm)]
        exact popHigher_count op.token (precedence_binop_pos op) output stack
      rw [hstep]
      simp only [parenScan, if_neg n1, if_neg n2]
      rw [← hcount]
      exact ih hts _ _
    · subst hl
      rw [shuntingLoop_lparen]
      simp only [parenScan, if_true]
      have := ih hts output ("(" :: stack)
      simpa using this
    · subst hr
      have hne : (")" : String) ≠ "(" := by decide
      have hb : byte0 ")" = some 41 := rfl
      simp only [parenScan, if_neg hne, if_true]
      rcases popToParen_count output stack with ⟨h0, hnil⟩ | ⟨out, st, hpop, hc⟩
      · have herr : shuntingLoop (")" :: ts) output stack = .error .mismatchedParentheses := by
          generalize hpp : popToParen output stack = pp at hnil
          obtain ⟨o, s⟩ := pp
          simp only at hnil
          subst hnil
          simp [shuntingLoop, shuntingStep, hb, isIdentifier, isDigit, hpp]
        simp [h0, herr]
      · have hstep : shuntingLoop (")" :: ts) output stack = shuntingLoop ts out st := by
          simp [shuntingLoop, shuntingStep, hb, isIdentifier, isDigit, hpop]
        have hd : stack.count "(" ≠ 0 := by omega
        have hd' : stack.count "(" - 1 = st.count "(" := by omega
        rw [hstep, hd']
        have hb1 : (stack.count "(" != 0) = true := by simpa using hd
        simp only [hb1, Bool.true_and]
        exact ih hts out st

theorem shuntingYard_paren_cases (tokens : List String)
    (h : ∀ t ∈ tokens, isGrammarToken t = true) :
    (shuntingYard tokens = .error .mismatchedParentheses ↔ Unbalanced tokens) ∧
      (¬ Unbalanced tokens → ∃ out, shuntingYard tokens = .ok out) := by
  have hscan := shuntingLoop_parenScan tokens h [] []
  simp only [List.count_nil] at hscan
  rw [← parenScan_zero_false_iff]
  unfold shuntingYard
  cases hs : parenScan tokens 0 with
  | false =>
    exact ⟨⟨fun _ => rfl, fun _ => hscan.2 hs⟩, fun hn => absurd rfl hn⟩
  | true =>
    obtain ⟨out, hout⟩ := hscan.1 hs
    refine ⟨⟨fun herr => ?_, fun hf => absurd hf (by decide)⟩, fun _ => ⟨out, hout⟩⟩
    rw [hout] at herr
    exact absurd herr (by simp)

/-- Claim C5. On a sequence of operand, operator and parenthesis tokens, `shuntingYard`
fails with the mismatched-parentheses error if and only if the parentheses are
unbalanced, and succeeds otherwise; in particular `Calc("(1 + 2")` fails with that
error. -/
theorem shuntingYard_mismatched_iff {F : Type} (fl : Float64Ops F) (tokens : List String)
    (h : ∀ t ∈ tokens, isGrammarToken t = true) :
    (shuntingYard tokens = .error .mismatchedParentheses ↔ Unbalanced tokens) ∧
      (¬ Unbalanced tokens → ∃ out, shuntingYard tokens = .ok out) ∧
      Calc fl "(1 + 2" = .error .mismatchedParentheses :=
  ⟨(shuntingYard_paren_cases tokens h).1, (shuntingYard_paren_cases tokens h).2, rfl⟩

theorem shuntingYard_mismatched_iff_witness :
    (∀ t ∈ ["(", "1", "+", "2"], isGrammarToken t = true) ∧
      Unbalanced ["(", "1", "+", "2"] ∧
      shuntingYard ["(", "1", "+", "2"] = .error .mismatchedParentheses ∧
      Calc integerOps "(1 + 2" = .error .mismatchedParentheses :=
  have hg : ∀ t ∈ ["(", "1", "+", "2"], isGrammarToken t = true := by decide
  have hc := shuntingYard_mismatched_iff integerOps ["(", "1", "+", "2"] hg
  ⟨hg, by decide, hc.1.mpr (by decide), hc.2.2⟩

/-! ## Division by zero -/

theorem rpnLoop_append {F : Type} (fl : Float64Ops F) (pre rest : List String)
    (stack stack' : List F) (h : rpnLoop fl pre stack = .ok stack') :
    rpnLoop fl (pre ++ rest) stack = rpnLoop fl rest stack' := by
  induction pre generalizing stack with
  | nil =>
    simp only [rpnLoop, Except.ok.injEq] at h
    subst h
    rfl
  | cons t ts ih =>
    simp only [rpnLoop, List.cons_append] at h ⊢
    cases hstep : rpnStep fl t stack with
    | error e => simp [hstep] at h
    | ok st =>
      simp only [hstep] at h ⊢
      exact ih st h

theorem rpnStep_divide_zero {F : Type} (fl : Float64Ops F) (a b : F) (stack : List F)
    (hz : fl.eqZero b = true) :
    rpnStep fl "/" (b :: a :: stack) = .error .divisionByZero := by
  have := rpnStep_binop fl .divide a b stack
  simpa [BinOp.token, hz] using this

theorem evaluateRPN_divide_zero {F : Type} (fl : Float64Ops F) (pre rest : List String)
    (a b : F) (stack : List F) (hpre : rpnLoop fl pre [] = .ok (b :: a :: stack))
    (hz : fl.eqZero b = true) :
    evaluateRPN fl (pre ++ "/" :: rest) = .error .divisionByZero := by
  unfold evaluateRPN
  rw [rpnLoop_append fl pre ("/" :: rest) [] _ hpre]
  simp [rpnLoop, rpnStep_divide_zero fl a b stack hz]

/-- Claim C6. When `evaluateRPN` processes a `"/"` token with at least two values on
its stack and the most recently pushed value `b` satisfies `b == 0`, it returns the
division-by-zero error, both for the single step and for the whole run; in particular
`Calc("1 / 0")` fails with that error. -/
theorem evaluateRPN_division_by_zero {F : Type} (fl : Float64Ops F) (ofInt : Int → F)
    (h : ExactOnIntegers fl ofInt) :
    (∀ (a b : F) (stack : List F), fl.eqZero b = true →
        rpnStep fl "/" (b :: a :: stack) = .error .divisionByZero) ∧
      (∀ (pre rest : List String) (a b : F) (stack : List F),
        rpnLoop fl pre [] = .ok (b :: a :: stack) → fl.eqZero b = true →
        evaluateRPN fl (pre ++ "/" :: rest) = .error .divisionByZero) ∧
      Calc fl "1 / 0" = .error .divisionByZero := by
  refine ⟨rpnStep_divide_zero fl, evaluateRPN_divide_zero fl, ?_⟩
  have ht : tokenize "1 / 0" = ["1", "/", "0"] := rfl
  have hs : shuntingYard ["1", "/", "0"] = .ok ["1", "0", "/"] := rfl
  have s1 := rpnLoop_digit h '1' rfl ["0"] []
  have s2 := rpnLoop_digit h '0' rfl [] [ofInt 1]
  have hpre : rpnLoop fl ["1", "0"] [] = .ok [ofInt 0, ofInt 1] := s1.trans (s2.trans rfl)
  have hz : fl.eqZero (ofInt 0) = true := by
    rw [h.eqZero_ofInt 0 (by norm_num)]
    rfl
  unfold Calc
  rw [ht, hs]
  exact evaluateRPN_divide_zero fl ["1", "0"] [] (ofInt 1) (ofInt 0) [] hpre hz

theorem evaluateRPN_division_by_zero_witness :
    ExactOnIntegers integerOps id ∧
      rpnStep integerOps "/" [0, 7] = .error .divisionByZero ∧
      evaluateRPN integerOps (["7", "0"] ++ "/" :: ["2", "+"]) = .error .divisionByZero ∧
      Calc integerOps "1 / 0" = .error .divisionByZero :=
  have hc := evaluateRPN_division_by_zero integerOps id integerOps_exact
  ⟨integerOps_exact, hc.1 7 0 [] rfl, hc.2.1 ["7", "0"] ["2", "+"] 7 0 [] rfl rfl, hc.2.2⟩

/-! ## The empty-expression error -/

theorem isOperator_singleton (c : Char) :
    isOperator (String.singleton c) = (c = '+' || c = '-' || c = '*' || c = '/') := by
  apply Bool.eq_iff_iff.mpr
  simp [isOperator, String.ext_iff]

theorem isRecognized_eq (c : Char) :
    isRecognized c = (decide (c = ' ') ||
      (isOperator (String.singleton c) || decide (c = '(') || decide (c = ')')) ||
      (isIdentifier c.toNat || isDigit c.toNat || decide (c = '.'))) := by
  apply Bool.eq_iff_iff.mpr
  simp only [isRecognized, isOperator_singleton, isIdentifier, isDigit, Bool.or_eq_true,
    Bool.and_eq_true, decide_eq_true_eq, beq_iff_eq]
  have hdot : c.toNat = '.'.toNat ↔ c = '.' := by
    constructor
    · intro h
      have := congrArg Char.ofNat h
      simpa [Char.ofNat_toNat] using this
    · rintro rfl; rfl
  rw [hdot]
  tauto

theorem tokenizeLoop_eq_nil_iff (chars : List Char) (tokens : List String)
    (current : List Char) :
    tokenizeLoop chars tokens current = [] ↔
      (∃ c ∈ chars, isRecognized c = false) ∨
        (tokens = [] ∧ current = [] ∧ ∀ c ∈ chars, c = ' ') := by
  induction chars generalizing tokens current with
  | nil =>
    cases current with
    | nil => simp [tokenizeLoop]
    | cons x xs => simp [tokenizeLoop]
  | cons c cs ih =>
    have hrec := isRecognized_eq c
    by_cases hsp : c = ' '
    · have hr : isRecognized c = true := by rw [hrec]; simp [hsp]
      subst hsp
      simp only [tokenizeLoop, if_true, ih]
      simp [hr]
    · by_cases hop : (isOperator (String.singleton c) || decide (c = '(') || decide (c = ')')) = true
      · have hr : isRecognized c = true := by rw [hrec]; simp [hop]
        have hgo : tokenizeLoop (c :: cs) tokens current = [] ↔ ∃ x ∈ cs, isRecognized x = false := by
          simp only [tokenizeLoop, if_neg hsp, if_pos hop]
          split_ifs <;> simp [ih]
        rw [hgo]
        simp [hr, hsp]
      · by_cases hlit : (isIdentifier c.toNat || isDigit c.toNat || decide (c = '.')) = true
        · have hr : isRecognized c = true := by rw [hrec]; simp [hlit]
          simp only [tokenizeLoop, if_neg hsp, if_neg hop, if_pos hlit, ih]
          simp [hr, hsp]
        · have hr : isRecognized c = false := by
            rw [hrec]
            simp only [Bool.not_eq_true] at hop hlit
            simp [hsp, hop, hlit]
          simp only [tokenizeLoop, if_neg hsp, if_neg hop, if_neg hlit]
          simp [hr]

theorem tokenize_eq_nil_iff (expression : String) :
    tokenize expression = [] ↔
      (∀ c ∈ expression.data, c = ' ') ∨ (∃ c ∈ expression.data, isRecognized c = false) := by
  unfold tokenize
  rw [tokenizeLoop_eq_nil_iff]
  simp only [true_and]
  exact Or.comm

theorem shuntingStep_ne_empty (token : String) (output stack : List String) :
    shuntingStep token output stack ≠ .error .emptyExpression := by
  unfold shuntingStep
  cases byte0 token with
  | none => simp
  | some b =>
    simp only
    split_ifs
    · simp
    · simp
    · rcases hp : popToParen output stack with ⟨o, _ | ⟨x, s⟩⟩ <;> simp
    · simp
    · simp

theorem drainStack_ne_empty (output stack : List String) :
    drainStack output stack ≠ .error .emptyExpression := by
  rw [drainStack_eq]
  split_ifs <;> simp

theorem shuntingLoop_ne_empty (tokens output stack : List String) :
    shuntingLoop tokens output stack ≠ .error .emptyExpression := by
  induction tokens generalizing output stack with
  | nil => exact drainStack_ne_empty output stack
  | cons t ts ih =>
    simp only [shuntingLoop]
    cases hs : shuntingStep t output stack with
    | error e =>
      have := shuntingStep_ne_empty t output stack
      rw [hs] at this
      simpa using this
    | ok st =>
      obtain ⟨o, s⟩ := st
      exact ih o s

theorem rpnStep_ne_empty {F : Type} (fl : Float64Ops F) (token : String) (stack : List F) :
    rpnStep fl token stack ≠ .error .emptyExpression := by
  unfold rpnStep
  cases byte0 token with
  | none => simp
  | some b =>
    simp only
    split_ifs <;> first
      | (simp; done)
      | (cases fl.parseFloat token <;> simp; done)
      | (rcases stack with _ | ⟨y, _ | ⟨x, s⟩⟩ <;> simp; done)
      | (rcases stack with _ | ⟨y, _ | ⟨x, s⟩⟩ <;> simp <;> split_ifs <;> simp)

theorem rpnLoop_ne_empty {F : Type} (fl : Float64Ops F) (rpn : List String) (stack : List F) :
    rpnLoop fl rpn stack ≠ .error .emptyExpression := by
  induction rpn generalizing stack with
  | nil => simp [rpnLoop]
  | cons t ts ih =>
    simp only [rpnLoop]
    cases hs : rpnStep fl t stack with
    | error e =>
      have := rpnStep_ne_empty fl t stack
      rw [hs] at this
      simpa using this
    | ok st => exact ih st

theorem evaluateRPN_ne_empty {F : Type} (fl : Float64Ops F) (rpn : List String) :
    evaluateRPN fl rpn ≠ .error .emptyExpression := by
  unfold evaluateRPN
  cases hs : rpnLoop fl rpn [] with
  | error e =>
    have := rpnLoop_ne_empty fl rpn []
    rw [hs] at this
    simpa using this
  | ok st =>
    rcases st with _ | ⟨y, _ | ⟨x, s⟩⟩ <;> simp

theorem Calc_empty_iff_tokenize {F : Type} (fl : Float64Ops F) (expression : String) :
    Calc fl expression = .error .emptyExpression ↔ tokenize expression = [] := by
  unfold Calc
  by_cases h : tokenize expression = []
  · simp [h]
  · have hl : (tokenize expression).length ≠ 0 := by simpa using h
    simp only [if_neg hl, h, iff_false]
    cases hs : shuntingYard (tokenize expression) with
    | error e =>
      have := shuntingLoop_ne_empty (tokenize expression) [] []
      unfold shuntingYard at hs
      rw [hs] at this
      simpa using this
    | ok rpn => exact evaluateRPN_ne_empty fl rpn

/-- Claim C7. `Calc` returns the empty-expression error if and only if the input
consists only of spaces (the empty string included) or contains a character outside
the recognized set; `Calc("")`, `Calc("   ")` and `Calc("1 $ 2")` all return it. -/
theorem Calc_emptyExpression_iff {F : Type} (fl : Float64Ops F) :
    (∀ expression : String, Calc fl expression = .error .emptyExpression ↔
        ((∀ c ∈ expression.data, c = ' ') ∨ (∃ c ∈ expression.data, isRecognized c = false))) ∧
      Calc fl "" = .error .emptyExpression ∧
      Calc fl "   " = .error .emptyExpression ∧
      Calc fl "1 $ 2" = .error .emptyExpression :=
  ⟨fun expression => (Calc_empty_iff_tokenize fl expression).trans (tokenize_eq_nil_iff expression),
    rfl, rfl, rfl⟩

/-! ## Identifiers are rejected by `evaluateRPN` -/

theorem byte0_of_ne_empty {token : String} (h : token ≠ "") : ∃ b, byte0 token = some b := by
  unfold byte0
  cases hd : token.data with
  | nil => exact absurd (String.ext_iff.mpr hd) h
  | cons c cs => exact ⟨utf8Lead c, rfl⟩

theorem byte0_of_lower {token : String} (h : startsWithLower token = true) :
    ∃ b, byte0 token = some b ∧ isIdentifier b = true := by
  unfold startsWithLower at h
  unfold byte0
  cases hd : token.data with
  | nil => simp [hd] at h
  | cons c cs =>
    simp only [hd, Bool.and_eq_true, decide_eq_true_eq] at h
    have hz : 'z'.toNat = 122 := rfl
    have hl : utf8Lead c = c.toNat := by
      have : c.toNat < 0x80 := by omega
      simp [utf8Lead, this]
    exact ⟨utf8Lead c, rfl, by
      rw [hl]; simp only [isIdentifier, Bool.and_eq_true, decide_eq_true_eq]; exact h⟩

theorem rpnStep_ne_panic {F : Type} (fl : Float64Ops F) {token : String} (h : token ≠ "")
    (stack : List F) : rpnStep fl token stack ≠ .error .indexOutOfRange := by
  obtain ⟨b, hb⟩ := byte0_of_ne_empty h
  unfold rpnStep
  rw [hb]
  simp only
  split_ifs <;> first
    | (simp; done)
    | (cases fl.parseFloat token <;> simp; done)
    | (rcases stack with _ | ⟨y, _ | ⟨x, s⟩⟩ <;> simp; done)
    | (rcases stack with _ | ⟨y, _ | ⟨x, s⟩⟩ <;> simp <;> split_ifs <;> simp)

theorem rpnLoop_identifier {F : Type} (fl : Float64Ops F) (rpn : List String)
    (hne : ∀ t ∈ rpn, t ≠ "") (hid : ∃ t ∈ rpn, startsWithLower t = true)
    (stack : List F) :
    ∃ e, rpnLoop fl rpn stack = .error e ∧ e ≠ .indexOutOfRange := by
  induction rpn generalizing stack with
  | nil => simp at hid
  | cons t ts ih =>
    have hts : ∀ x ∈ ts, x ≠ "" := fun x hx => hne x (List.mem_cons_of_mem _ hx)
    have hstep := rpnStep_ne_panic fl (hne t (List.mem_cons_self _ _)) stack
    simp only [rpnLoop]
    cases hs : rpnStep fl t stack with
    | error e =>
      rw [hs] at hstep
      exact ⟨e, rfl, fun he => hstep (by rw [he])⟩
    | ok st =>
      obtain ⟨x, hx, hlow⟩ := hid
      rcases List.mem_cons.mp hx with rfl | hx'
      · obtain ⟨b, hb, hi⟩ := byte0_of_lower hlow
        simp [rpnStep, hb, hi] at hs
      · exact ih hts ⟨x, hx', hlow⟩ st

/-- Claim C8. On a sequence of non-empty tokens that contains a token whose first
character is a lowercase letter, `evaluateRPN` returns an error and never a value; for
`"a + 1"`, `tokenize` yields `[a,+,1]`, `shuntingYard` succeeds with `[a,1,+]`, and
`evaluateRPN` fails with the identifiers-not-supported error. -/
theorem evaluateRPN_identifier {F : Type} (fl : Float64Ops F) (rpn : List String)
    (hne : ∀ t ∈ rpn, t ≠ "") (hid : ∃ t ∈ rpn, startsWithLower t = true) :
    (∃ e, evaluateRPN fl rpn = .error e ∧ e ≠ .indexOutOfRange) ∧
      tokenize "a + 1" = ["a", "+", "1"] ∧
      shuntingYard ["a", "+", "1"] = .ok ["a", "1", "+"] ∧
      evaluateRPN fl ["a", "1", "+"] = .error .identifiersNotSupported ∧
      Calc fl "a + 1" = .error .identifiersNotSupported := by
  refine ⟨?_, rfl, rfl, rfl, rfl⟩
  obtain ⟨e, he, hp⟩ := rpnLoop_identifier fl rpn hne hid []
  exact ⟨e, by simp [evaluateRPN, he], hp⟩

theorem evaluateRPN_identifier_witness :
    (∀ t ∈ ["1", "x", "+"], t ≠ "") ∧ (∃ t ∈ ["1", "x", "+"], startsWithLower t = true) ∧
      ∃ e, evaluateRPN integerOps ["1", "x", "+"] = .error e ∧ e ≠ .indexOutOfRange :=
  have hne : ∀ t ∈ ["1", "x", "+"], t ≠ "" := by decide
  have hid : ∃ t ∈ ["1", "x", "+"], startsWithLower t = true := by decide
  ⟨hne, hid, (evaluateRPN_identifier integerOps ["1", "x", "+"] hne hid).1⟩

/-! ## The output of `shuntingYard` has no parentheses -/

theorem NoParens.push_output {output stack : List String} (h : NoParens output stack)
    {x : String} (h1 : x ≠ "(") (h2 : x ≠ ")") : NoParens (output ++ [x]) stack := by
  refine ⟨fun y hy => ?_, h.2⟩
  rcases List.mem_append.mp hy with hy | hy
  · exact h.1 y hy
  · rw [List.mem_singleton.mp hy]; exact ⟨h1, h2⟩

theorem NoParens.pop_to_output {output stack : List String} {top : String}
    (h : NoParens output (top :: stack)) (h1 : top ≠ "(") :
    NoParens (output ++ [top]) stack :=
  NoParens.push_output ⟨h.1, fun x hx => h.2 x (List.mem_cons_of_mem _ hx)⟩ h1
    (h.2 top (List.mem_cons_self _ _))

theorem popToParen_noParens (output stack : List String) (h : NoParens output stack) :
    NoParens (popToParen output stack).1 (popToParen output stack).2 := by
  induction stack generalizing output with
  | nil => exact h
  | cons top st ih =>
    by_cases ht : top = "("
    · simpa [popToParen, ht] using h
    · simp only [popToParen, ne_eq, ht, not_false_eq_true, if_true]
      exact ih _ (h.pop_to_output ht)

theorem popHigher_noParens (token : String) (hp : 0 < precedence token)
    (output stack : List String) (h : NoParens output stack) :
    NoParens (popHigher token output stack).1 (popHigher token output stack).2 := by
  induction stack generalizing output with
  | nil => exact h
  | cons top st ih =>
    by_cases ht : precedence top ≥ precedence token
    · simp only [popHigher, ht, if_true]
      exact ih _ (h.pop_to_output (ne_lparen_of_precedence hp ht))
    · simpa [popHigher, ht] using h

theorem drainStack_noParens (output stack out : List String) (h : NoParens output stack)
    (hd : drainStack output stack = .ok out) : ∀ x ∈ out, x ≠ "(" ∧ x ≠ ")" := by
  induction stack generalizing output with
  | nil =>
    simp only [drainStack, Except.ok.injEq] at hd
    subst hd
    exact h.1
  | cons top st ih =>
    by_cases ht : top = "("
    · simp [drainStack, ht] at hd
    · simp only [drainStack, if_neg ht] at hd
      exact ih _ (h.pop_to_output ht) hd

theorem shuntingStep_noParens (token : String) (output stack output' stack' : List String)
    (h : NoParens output stack)
    (hs : shuntingStep token output stack = .ok (output', stack')) :
    NoParens output' stack' := by
  unfold shuntingStep at hs
  cases hb : byte0 token with
  | none => simp [hb] at hs
  | some b =>
    simp only [hb] at hs
    by_cases hc : (isIdentifier b || isDigit b) = true
    · simp only [if_pos hc, Except.ok.injEq, Prod.mk.injEq] at hs
      obtain ⟨rfl, rfl⟩ := hs
      have h1 : token ≠ "(" := by
        rintro rfl
        have : b = 40 := by
          have h40 : byte0 "(" = some 40 := rfl
          rw [h40] at hb
          exact (Option.some.inj hb).symm
        subst this
        exact absurd hc (by decide)
      have h2 : token ≠ ")" := by
        rintro rfl
        have : b = 41 := by
          have h41 : byte0 ")" = some 41 := rfl
          rw [h41] at hb
          exact (Option.some.inj hb).symm
        subst this
        exact absurd hc (by decide)
      exact h.push_output h1 h2
    · simp only [if_neg hc] at hs
      by_cases hl : token = "("
      · simp only [if_pos hl, Except.ok.injEq, Prod.mk.injEq] at hs
        obtain ⟨rfl, rfl⟩ := hs
        subst hl
        refine ⟨h.1, fun x hx => ?_⟩
        rcases List.mem_cons.mp hx with rfl | hx
        · decide
        · exact h.2 x hx
      · simp only [if_neg hl] at hs
        by_cases hr : token = ")"
        · simp only [if_pos hr] at hs
          have hpop := popToParen_noParens output stack h
          rcases hp : popToParen output stack with ⟨o, _ | ⟨x, s⟩⟩
          · simp [hp] at hs
          · simp only [hp, Except.ok.injEq, Prod.mk.injEq] at hs hpop
            obtain ⟨rfl, rfl⟩ := hs
            exact ⟨hpop.1, fun y hy => hpop.2 y (List.mem_cons_of_mem _ hy)⟩
        · simp only [if_neg hr] at hs
          by_cases ho : isOperator token = true
          · simp only [if_pos ho, Except.ok.injEq, Prod.mk.injEq] at hs
            obtain ⟨rfl, rfl⟩ := hs
            obtain ⟨op, rfl⟩ := (isOperator_iff_binop token).mp ho
            have hpop := popHigher_noParens op.token (precedence_binop_pos op) output stack h
            refine ⟨hpop.1, fun y hy => ?_⟩
            rcases List.mem_cons.mp hy with rfl | hy
            · exact hr
            · exact hpop.2 y hy
          · simp [if_neg ho] at hs

theorem shuntingLoop_noParens (tokens output stack out : List String)
    (h : NoParens output stack) (hs : shuntingLoop tokens output stack = .ok out) :
    ∀ x ∈ out, x ≠ "(" ∧ x ≠ ")" := by
  induction tokens generalizing output stack with
  | nil => exact drainStack_noParens output stack out h hs
  | cons t ts ih =>
    simp only [shuntingLoop] at hs
    cases hstep : shuntingStep t output stack with
    | error e => simp [hstep] at hs
    | ok st =>
      obtain ⟨o, s⟩ := st
      simp only [hstep] at hs
      exact ih o s (shuntingStep_noParens t output stack o s h hstep) hs

theorem shuntingYard_output_noParens (tokens out : List String)
    (hs : shuntingYard tokens = .ok out) : ∀ x ∈ out, x ≠ "(" ∧ x ≠ ")" :=
  shuntingLoop_noParens tokens [] [] out ⟨by simp, by simp⟩ hs

/-- Claim C9. For every sequence of non-empty tokens on which `shuntingYard` succeeds,
the output contains neither the token `"("` nor the token `")"`. -/
theorem shuntingYard_no_parentheses (tokens out : List String)
    (_hne : ∀ t ∈ tokens, t ≠ "") (hs : shuntingYard tokens = .ok out) :
    "(" ∉ out ∧ ")" ∉ out :=
  ⟨fun hm => (shuntingYard_output_noParens tokens out hs "(" hm).1 rfl,
    fun hm => (shuntingYard_output_noParens tokens out hs ")" hm).2 rfl⟩

theorem shuntingYard_no_parentheses_witness :
    (∀ t ∈ ["3", "+", "5", "*", "(", "2", "-", "8", ")"], t ≠ "") ∧
      shuntingYard ["3", "+", "5", "*", "(", "2", "-", "8", ")"]
        = .ok ["3", "5", "2", "8", "-", "*", "+"] ∧
      "(" ∉ ["3", "5", "2", "8", "-", "*", "+"] ∧ ")" ∉ ["3", "5", "2", "8", "-", "*", "+"] :=
  have hne : ∀ t ∈ ["3", "+", "5", "*", "(", "2", "-", "8", ")"], t ≠ "" := by decide
  ⟨hne, rfl, shuntingYard_no_parentheses _ _ hne rfl⟩

/-! ## Postfix order of the output -/

theorem shuntingYard_of_derives {tokens : List String} {tree : Tree}
    (h : Derives .expr tokens tree) : shuntingYard tokens = .ok tree.postorder := by
  obtain ⟨out, ops, hpost, hops, hrun⟩ :=
    shuntingLoop_derives h [] [] [] (by intro top htop; simp at htop)
  have hne : ∀ x ∈ ops, x ≠ "(" := fun x hx =>
    ne_lparen_of_precedence (by decide) (hops x hx)
  have hd := drainStack_ops ops hne out
  rw [hpost] at hd
  simpa [shuntingYard, shuntingLoop, hd] using hrun

theorem postfixScan_binop (op : BinOp) (rest : List String) (n : Nat) :
    postfixScan (op.token :: rest) (n + 2) = postfixScan rest (n + 1) := by
  cases op <;> simp [postfixScan, BinOp.token, byte0, utf8Lead, isIdentifier, isDigit, isOperator]

theorem postfixScan_postorder {lvl : Level} {tokens : List String} {tree : Tree}
    (h : Derives lvl tokens tree) (rest : List String) (n : Nat) :
    postfixScan (tree.postorder ++ rest) n = postfixScan rest (n + 1) := by
  induction h generalizing rest n with
  | operand token htok =>
    obtain ⟨b, hb, hc⟩ := byte0_of_operand htok
    simp [Tree.postorder, postfixScan, hb, hc]
  | paren _ ih => exact ih rest n
  | ofFactor _ ih => exact ih rest n
  | ofTerm _ ih => exact ih rest n
  | @mulDiv _ _ left right op _ _ _ ih₁ ih₂ =>
    have : (Tree.node op left right).postorder ++ rest
        = left.postorder ++ (right.postorder ++ (op.token :: rest)) := by
      simp [Tree.postorder]
    rw [this, ih₁, ih₂, postfixScan_binop]
  | @addSub _ _ left right op _ _ _ ih₁ ih₂ =>
    have : (Tree.node op left right).postorder ++ rest
        = left.postorder ++ (right.postorder ++ (op.token :: rest)) := by
      simp [Tree.postorder]
    rw [this, ih₁, ih₂, postfixScan_binop]

theorem rpnLoop_of_postfixScan {F : Type} (fl : Float64Ops F) (tokens : List String)
    (n k : Nat) (stack : List F) (hscan : postfixScan tokens n = some k)
    (hlen : stack.length = n) :
    (∃ e, rpnLoop fl tokens stack = .error e ∧ e ≠ .invalidRPN) ∨
      ∃ st, rpnLoop fl tokens stack = .ok st ∧ st.length = k := by
  induction tokens generalizing n stack with
  | nil =>
    simp only [postfixScan, Option.some.injEq] at hscan
    exact Or.inr ⟨stack, rfl, by omega⟩
  | cons t ts ih =>
    simp only [postfixScan] at hscan
    cases hb : byte0 t with
    | none => simp [hb] at hscan
    | some b =>
      simp only [hb] at hscan
      by_cases hi : isIdentifier b = true
      · exact Or.inl ⟨.identifiersNotSupported, by simp [rpnLoop, rpnStep, hb, hi], by simp⟩
      · by_cases hd : isDigit b = true
        · have hc : (isIdentifier b || isDigit b) = true := by simp [hd]
          simp only [if_pos hc] at hscan
          cases hp : fl.parseFloat t with
          | none =>
            exact Or.inl ⟨.parseFloatError t, by simp [rpnLoop, rpnStep, hb, hi, hd, hp], by simp⟩
          | some v =>
            have hstep : rpnLoop fl (t :: ts) stack = rpnLoop fl ts (v :: stack) := by
              simp [rpnLoop, rpnStep, hb, hi, hd, hp]
            rw [hstep]
            exact ih (n + 1) (v :: stack) hscan (by simp [hlen])
        · have hc : ¬ (isIdentifier b || isDigit b) = true := by simp [hi, hd]
          simp only [if_neg hc] at hscan
          by_cases ho : isOperator t = true
          · simp only [if_pos ho] at hscan
            by_cases h2 : 2 ≤ n
            · simp only [if_pos h2] at hscan
              obtain ⟨op, rfl⟩ := (isOperator_iff_binop t).mp ho
              rcases stack with _ | ⟨y, _ | ⟨x, s⟩⟩
              · simp at hlen; omega
              · simp at hlen; omega
              · rw [rpnLoop_binop]
                split_ifs
                · exact Or.inl ⟨.divisionByZero, rfl, by simp⟩
                · exact ih (n - 1) _ hscan (by simp at hlen ⊢; omega)
            · simp [if_neg h2] at hscan
          · simp [if_neg ho] at hscan

theorem validRPN_not_invalidRPN {F : Type} (fl : Float64Ops F) (tokens : List String)
    (h : ValidRPN tokens) : evaluateRPN fl tokens ≠ .error .invalidRPN := by
  unfold evaluateRPN
  rcases rpnLoop_of_postfixScan fl tokens 0 1 [] h rfl with ⟨e, he, hne⟩ | ⟨st, hst, hlen⟩
  · simp only [he]
    intro heq
    exact hne (Except.error.inj heq)
  · rcases st with _ | ⟨v, _ | ⟨w, s⟩⟩
    · simp at hlen
    · simp [hst]
    · simp at hlen

/-- Claim C10 as stated, refuted. `shuntingYard` succeeds on `["-", "5"]`, the
tokens of `"-5"`, with output `["5", "-"]`, which is not in valid postfix order: the
operator finds a single operand, and `evaluateRPN` fails on it with the structural
invalid-RPN error. -/
theorem shuntingYard_postfix_counterexample :
    tokenize "-5" = ["-", "5"] ∧
      shuntingYard ["-", "5"] = .ok ["5", "-"] ∧
      ¬ ValidRPN ["5", "-"] ∧
      evaluateRPN integerOps ["5", "-"] = .error .invalidRPN ∧
      ¬ (∀ tokens out : List String, shuntingYard tokens = .ok out → ValidRPN out) :=
  ⟨rfl, rfl, by decide, rfl, fun h => absurd (h ["-", "5"] ["5", "-"] rfl) (by decide)⟩

/-- Claim C10, amended. For every token sequence generated by the infix grammar,
`shuntingYard` succeeds and its output is in valid postfix order: every operator token
finds at least two operands available and exactly one value remains at the end, so
`evaluateRPN` does not fail on it with the structural invalid-RPN error. -/
theorem shuntingYard_postfix_valid {F : Type} (fl : Float64Ops F) (tokens : List String)
    (tree : Tree) (h : Derives .expr tokens tree) :
    ∃ out, shuntingYard tokens = .ok out ∧ ValidRPN out ∧
      evaluateRPN fl out ≠ .error .invalidRPN := by
  have hv : ValidRPN tree.postorder := by
    have := postfixScan_postorder h [] 0
    simpa [ValidRPN, postfixScan] using this
  exact ⟨tree.postorder, shuntingYard_of_derives h, hv,
    validRPN_not_invalidRPN fl tree.postorder hv⟩

theorem shuntingYard_postfix_valid_witness :
    Derives .expr ["3", "+", "5", "*", "(", "2", "-", "8", ")"] exampleTree ∧
      ∃ out, shuntingYard ["3", "+", "5", "*", "(", "2", "-", "8", ")"] = .ok out ∧
        ValidRPN out ∧ evaluateRPN integerOps out ≠ .error .invalidRPN :=
  ⟨derives_example, shuntingYard_postfix_valid integerOps _ exampleTree derives_example⟩

/-! ## Shape of the tokens of `tokenize` -/

theorem toNat_eq_dot (c : Char) : c.toNat = '.'.toNat ↔ c = '.' := by
  constructor
  · intro h
    have := congrArg Char.ofNat h
    simpa [Char.ofNat_toNat] using this
  · rintro rfl; rfl

theorem symbolCond_eq (c : Char) :
    (isOperator (String.singleton c) || decide (c = '(') || decide (c = ')')) = isSymbolChar c := by
  apply Bool.eq_iff_iff.mpr
  simp only [isOperator_singleton, isSymbolChar, Bool.or_eq_true, decide_eq_true_eq]

theorem literalCond_eq (c : Char) :
    (isIdentifier c.toNat || isDigit c.toNat || decide (c = '.')) = isLiteralChar c := by
  apply Bool.eq_iff_iff.mpr
  simp only [isIdentifier, isDigit, isLiteralChar, Bool.or_eq_true, Bool.and_eq_true,
    decide_eq_true_eq, beq_iff_eq, toNat_eq_dot]
  tauto

theorem tokenizeLoop_space (rest : List Char) (tokens : List String) (current : List Char) :
    tokenizeLoop (' ' :: rest) tokens current = tokenizeLoop rest tokens current := by
  simp [tokenizeLoop]

theorem symbol_ne_space {c : Char} (h : isSymbolChar c = true) : c ≠ ' ' := by
  rintro rfl; exact absurd h (by decide)

theorem literal_ne_space {c : Char} (h : isLiteralChar c = true) : c ≠ ' ' := by
  rintro rfl; exact absurd h (by decide)

theorem literal_not_symbol {c : Char} (h : isLiteralChar c = true) : isSymbolChar c = false := by
  cases hs : isSymbolChar c with
  | false => rfl
  | true =>
    simp only [isSymbolChar, Bool.or_eq_true, decide_eq_true_eq] at hs
    rcases hs with ((((rfl | rfl) | rfl) | rfl) | rfl) | rfl <;> exact absurd h (by decide)

theorem tokenizeLoop_symbol {c : Char} (h : isSymbolChar c = true) (rest : List Char)
    (tokens : List String) (current : List Char) :
    tokenizeLoop (c :: rest) tokens current
      = tokenizeLoop rest
          (tokens ++ (if current = [] then [] else [String.mk current]) ++ [String.singleton c])
          [] := by
  have hsp := symbol_ne_space h
  have hc := symbolCond_eq c
  rw [h] at hc
  cases current with
  | nil => simp [tokenizeLoop, hsp, hc]
  | cons x xs => simp [tokenizeLoop, hsp, hc]

theorem tokenizeLoop_literal {c : Char} (h : isLiteralChar c = true) (rest : List Char)
    (tokens : List String) (current : List Char) :
    tokenizeLoop (c :: rest) tokens current = tokenizeLoop rest tokens (current ++ [c]) := by
  have hsp := literal_ne_space h
  have hs := symbolCond_eq c
  rw [literal_not_symbol h] at hs
  have hl := literalCond_eq c
  rw [h] at hl
  simp only [tokenizeLoop, if_neg hsp, hs, hl, if_true]
  simp

theorem tokenizeLoop_invalid {c : Char} (h : isRecognized c = false) (rest : List Char)
    (tokens : List String) (current : List Char) :
    tokenizeLoop (c :: rest) tokens current = [] := by
  rw [isRecognized_eq] at h
  simp only [Bool.or_eq_false_iff, decide_eq_false_iff_not] at h
  obtain ⟨⟨hsp, hs⟩, hl⟩ := h
  have hs' : (isOperator (String.singleton c) || decide (c = '(') || decide (c = ')')) = false := by
    simpa using hs
  have hl' : (isIdentifier c.toNat || isDigit c.toNat || decide (c = '.')) = false := by
    simpa using hl
  simp only [tokenizeLoop, if_neg hsp, hs', hl']
  simp

theorem recognized_cases (c : Char) :
    c = ' ' ∨ isSymbolChar c = true ∨ isLiteralChar c = true ∨ isRecognized c = false := by
  have h := isRecognized_eq c
  rw [symbolCond_eq, literalCond_eq] at h
  by_cases hsp : c = ' '
  · exact Or.inl hsp
  · cases hs : isSymbolChar c with
    | true => exact Or.inr (Or.inl rfl)
    | false =>
      cases hl : isLiteralChar c with
      | true => exact Or.inr (Or.inr (Or.inl rfl))
      | false =>
        refine Or.inr (Or.inr (Or.inr ?_))
        rw [h, hs, hl]
        simp [hsp]

theorem isSymbolToken_singleton {c : Char} (h : isSymbolChar c = true) :
    isSymbolToken (String.singleton c) = true := by
  simp only [isSymbolChar, Bool.or_eq_true, decide_eq_true_eq] at h
  rcases h with ((((rfl | rfl) | rfl) | rfl) | rfl) | rfl <;> rfl

theorem isSymbolToken_iff (token : String) :
    isSymbolToken token = true ↔ ∃ c, isSymbolChar c = true ∧ token = String.singleton c := by
  constructor
  · intro h
    simp only [isSymbolToken, Bool.or_eq_true, beq_iff_eq] at h
    rcases h with ((((rfl | rfl) | rfl) | rfl) | rfl) | rfl
    · exact ⟨'+', rfl, rfl⟩
    · exact ⟨'-', rfl, rfl⟩
    · exact ⟨'*', rfl, rfl⟩
    · exact ⟨'/', rfl, rfl⟩
    · exact ⟨'(', rfl, rfl⟩
    · exact ⟨')', rfl, rfl⟩
  · rintro ⟨c, hc, rfl⟩
    exact isSymbolToken_singleton hc

theorem isLiteralToken_mk {current : List Char} (hne : current ≠ [])
    (h : ∀ c ∈ current, isLiteralChar c = true) : isLiteralToken (String.mk current) = true := by
  cases current with
  | nil => exact absurd rfl hne
  | cons x xs =>
    simp only [isLiteralToken, List.isEmpty_cons, Bool.not_false, Bool.true_and, List.all_eq_true]
    exact h

/-- Invariant of the loop of `tokenize`: the finished tokens are symbol or literal
tokens, and the pending buffer holds literal characters only. -/
theorem tokenizeLoop_shape (chars : List Char) (tokens : List String) (current : List Char)
    (htok : ∀ t ∈ tokens, isSymbolToken t = true ∨ isLiteralToken t = true)
    (hcur : ∀ c ∈ current, isLiteralChar c = true) :
    ∀ t ∈ tokenizeLoop chars tokens current,
      isSymbolToken t = true ∨ isLiteralToken t = true := by
  induction chars generalizing tokens current with
  | nil =>
    intro t ht
    by_cases hc : current = []
    · subst hc
      exact htok t (by simpa [tokenizeLoop] using ht)
    · have hlen : current.length > 0 := List.length_pos.mpr hc
      simp only [tokenizeLoop, if_pos hlen, List.mem_append, List.mem_singleton] at ht
      rcases ht with ht | rfl
      · exact htok t ht
      · exact Or.inr (isLiteralToken_mk hc hcur)
  | cons c cs ih =>
    rcases recognized_cases c with rfl | hs | hl | hbad
    · rw [tokenizeLoop_space]; exact ih tokens current htok hcur
    · rw [tokenizeLoop_symbol hs]
      apply ih
      · intro t ht
        simp only [List.mem_append, List.mem_singleton] at ht
        rcases ht with (ht | ht) | rfl
        · exact htok t ht
        · by_cases hc : current = []
          · simp [hc] at ht
          · simp only [if_neg hc, List.mem_singleton] at ht
            subst ht
            exact Or.inr (isLiteralToken_mk hc hcur)
        · exact Or.inl (isSymbolToken_singleton hs)
      · simp
    · rw [tokenizeLoop_literal hl]
      apply ih _ _ htok
      intro x hx
      rcases List.mem_append.mp hx with hx | hx
      · exact hcur x hx
      · rw [List.mem_singleton.mp hx]; exact hl
    · rw [tokenizeLoop_invalid hbad]; simp

theorem tokenize_shape (expression : String) :
    ∀ t ∈ tokenize expression, isSymbolToken t = true ∨ isLiteralToken t = true :=
  tokenizeLoop_shape expression.data [] [] (by simp) (by simp)

theorem literalToken_chars {token : String} (h : isLiteralToken token = true) :
    token.data ≠ [] ∧ ∀ c ∈ token.data, isLiteralChar c = true := by
  simp only [isLiteralToken, Bool.and_eq_true, Bool.not_eq_true', List.isEmpty_eq_false,
    List.all_eq_true] at h
  exact h

/-- Claim C11. Every token returned by `tokenize` is exactly one of the
single-character strings `"+"`, `"-"`, `"*"`, `"/"`, `"("`, `")"` or a non-empty string
made only of lowercase letters, digits and `'.'`; hence no token contains a space, and
a token containing an operator or parenthesis character is that single character. -/
theorem tokenize_token_shape (expression : String) :
    ∀ t ∈ tokenize expression,
      (isSymbolToken t = true ∨
        (t.data ≠ [] ∧ ∀ c ∈ t.data, isLiteralChar c = true)) ∧
      ' ' ∉ t.data ∧
      (∀ c ∈ t.data, isSymbolChar c = true → t = String.singleton c) := by
  intro t ht
  rcases tokenize_shape expression t ht with hs | hl
  · obtain ⟨c, hc, rfl⟩ := (isSymbolToken_iff t).mp hs
    refine ⟨Or.inl hs, ?_, ?_⟩
    · simp only [String.data_singleton, List.mem_singleton]
      exact fun h => symbol_ne_space hc h.symm
    · intro x hx _
      simp only [String.data_singleton, List.mem_singleton] at hx
      rw [hx]
  · obtain ⟨hne, hall⟩ := literalToken_chars hl
    refine ⟨Or.inr ⟨hne, hall⟩, fun hsp => literal_ne_space (hall ' ' hsp) rfl, ?_⟩
    intro x hx hsym
    rw [literal_not_symbol (hall x hx)] at hsym
    exact absurd hsym (by decide)

theorem tokenize_token_shape_witness :
    "12" ∈ tokenize "(12+a)" ∧
      ((isSymbolToken "12" = true ∨
          ("12".data ≠ [] ∧ ∀ c ∈ "12".data, isLiteralChar c = true)) ∧
        ' ' ∉ "12".data ∧
        (∀ c ∈ "12".data, isSymbolChar c = true → "12" = String.singleton c)) :=
  have hm : "12" ∈ tokenize "(12+a)" := by decide
  ⟨hm, tokenize_token_shape "(12+a)" "12" hm⟩

/-! ## Spaces and concatenation of the tokens -/

theorem concatTokens_append (xs ys : List String) :
    concatTokens (xs ++ ys) = concatTokens xs ++ concatTokens ys := by
  simp [concatTokens]

theorem filter_space_cons {c : Char} (h : c ≠ ' ') (cs : List Char) :
    (c :: cs).filter (fun c => c ≠ ' ') = c :: cs.filter (fun c => c ≠ ' ') := by
  simp [List.filter_cons, h]

theorem tokenizeLoop_strip (chars : List Char) (tokens : List String) (current : List Char) :
    tokenizeLoop (chars.filter (fun c => c ≠ ' ')) tokens current
      = tokenizeLoop chars tokens current := by
  induction chars generalizing tokens current with
  | nil => rfl
  | cons c cs ih =>
    rcases recognized_cases c with rfl | hs | hl | hbad
    · rw [tokenizeLoop_space]
      simpa using ih tokens current
    · have hsp := symbol_ne_space hs
      rw [filter_space_cons hsp]
      rw [tokenizeLoop_symbol hs, tokenizeLoop_symbol hs]
      exact ih _ _
    · have hsp := literal_ne_space hl
      rw [filter_space_cons hsp]
      rw [tokenizeLoop_literal hl, tokenizeLoop_literal hl]
      exact ih _ _
    · have hsp : c ≠ ' ' := by rintro rfl; exact absurd hbad (by decide)
      rw [filter_space_cons hsp]
      rw [tokenizeLoop_invalid hbad, tokenizeLoop_invalid hbad]

theorem tokenizeLoop_concat (chars : List Char) (tokens : List String) (current : List Char)
    (hrec : ∀ c ∈ chars, isRecognized c = true) :
    concatTokens (tokenizeLoop chars tokens current)
      = concatTokens tokens ++ current ++ chars.filter (fun c => c ≠ ' ') := by
  induction chars generalizing tokens current with
  | nil =>
    cases current with
    | nil => simp [tokenizeLoop]
    | cons x xs => simp [tokenizeLoop, concatTokens]
  | cons c cs ih =>
    have hcs : ∀ x ∈ cs, isRecognized x = true := fun x hx => hrec x (List.mem_cons_of_mem _ hx)
    rcases recognized_cases c with rfl | hs | hl | hbad
    · rw [tokenizeLoop_space, ih _ _ hcs]
      simp
    · have hsp := symbol_ne_space hs
      rw [tokenizeLoop_symbol hs, ih _ _ hcs]
      rw [filter_space_cons hsp]
      by_cases hc : current = []
      · simp [hc, concatTokens]
      · simp [hc, concatTokens]
    · have hsp := literal_ne_space hl
      rw [tokenizeLoop_literal hl, ih _ _ hcs]
      rw [filter_space_cons hsp]
      simp
    · have := hrec c (List.mem_cons_self _ _)
      rw [hbad] at this
      exact absurd this (by decide)

/-- Claim C18. For an input made only of spaces and recognized characters, the
concatenation of the tokens of `tokenize` is the input with all spaces removed, and
`tokenize` gives the same tokens on the input with its spaces removed; so spaces do
not separate literals: `tokenize("1 2") = tokenize("12") = ["12"]`. -/
theorem tokenize_concat_strip (expression : String)
    (hrec : ∀ c ∈ expression.data, isRecognized c = true) :
    concatTokens (tokenize expression) = (stripSpaces expression).data ∧
      tokenize expression = tokenize (stripSpaces expression) ∧
      tokenize "1 2" = ["12"] ∧ tokenize "12" = ["12"] := by
  refine ⟨?_, ?_, rfl, rfl⟩
  · have := tokenizeLoop_concat expression.data [] [] hrec
    simpa [tokenize, stripSpaces, concatTokens] using this
  · exact (tokenizeLoop_strip expression.data [] []).symm

theorem tokenize_concat_strip_witness :
    (∀ c ∈ "3 + 5 * (2 - 8)".data, isRecognized c = true) ∧
      concatTokens (tokenize "3 + 5 * (2 - 8)") = "3+5*(2-8)".data ∧
      tokenize "3 + 5 * (2 - 8)" = tokenize "3+5*(2-8)" :=
  have hrec : ∀ c ∈ "3 + 5 * (2 - 8)".data, isRecognized c = true := by decide
  have h := tokenize_concat_strip "3 + 5 * (2 - 8)" hrec
  ⟨hrec, h.1, h.2.1⟩

/-! ## Literal tokens are maximal runs of the input without its spaces -/

theorem tokenizeLoop_separated (chars : List Char) (tokens : List String) (current : List Char)
    (hsep : Separated tokens) (hlast : ∀ l ∈ tokens.getLast?, isSymbolToken l = true) :
    Separated (tokenizeLoop chars tokens current) := by
  induction chars generalizing tokens current with
  | nil =>
    by_cases hc : current = []
    · subst hc; simpa [tokenizeLoop] using hsep
    · have hlen : current.length > 0 := List.length_pos.mpr hc
      simp only [tokenizeLoop, if_pos hlen]
      exact List.Chain'.append hsep (List.chain'_singleton _)
        (fun x hx _ _ => Or.inl (hlast x hx))
  | cons c cs ih =>
    rcases recognized_cases c with rfl | hs | hl | hbad
    · rw [tokenizeLoop_space]; exact ih tokens current hsep hlast
    · rw [tokenizeLoop_symbol hs]
      have hsym := isSymbolToken_singleton hs
      apply ih
      · refine List.Chain'.append ?_ (List.chain'_singleton _) (fun _ _ y hy => ?_)
        · by_cases hc : current = []
          · simpa [hc] using hsep
          · simp only [if_neg hc]
            exact List.Chain'.append hsep (List.chain'_singleton _)
              (fun x hx _ _ => Or.inl (hlast x hx))
        · simp only [List.head?_cons, Option.mem_def, Option.some.injEq] at hy
          subst hy
          exact Or.inr hsym
      · intro l hl
        rw [List.getLast?_concat] at hl
        simp only [Option.mem_def, Option.some.injEq] at hl
        subst hl
        exact hsym
    · rw [tokenizeLoop_literal hl]; exact ih tokens _ hsep hlast
    · rw [tokenizeLoop_invalid hbad]; exact List.chain'_nil

theorem literal_not_symbolToken {token : String} (h : isLiteralToken token = true) :
    isSymbolToken token = false := by
  cases hs : isSymbolToken token with
  | false => rfl
  | true =>
    obtain ⟨c, hc, rfl⟩ := (isSymbolToken_iff token).mp hs
    have := (literalToken_chars h).2 c (by simp)
    rw [literal_not_symbol this] at hc
    exact absurd hc (by decide)

theorem symbol_not_literal {c : Char} (h : isSymbolChar c = true) : isLiteralChar c = false := by
  cases hl : isLiteralChar c with
  | false => rfl
  | true =>
    rw [literal_not_symbol hl] at h
    exact absurd h (by decide)

theorem concatTokens_getLast (tokens : List String)
    (hlast : ∀ l ∈ tokens.getLast?, isSymbolToken l = true) :
    ∀ c ∈ (concatTokens tokens).getLast?, isLiteralChar c = false := by
  rcases List.eq_nil_or_concat tokens with rfl | ⟨init, l, rfl⟩
  · intro c hc; simp [concatTokens] at hc
  · rw [List.concat_eq_append] at hlast ⊢
    have hl := hlast l (by simp)
    obtain ⟨x, hx, rfl⟩ := (isSymbolToken_iff l).mp hl
    intro c hc
    have hcat : concatTokens (init ++ [String.singleton x]) = concatTokens init ++ [x] := by
      simp [concatTokens]
    rw [hcat, List.getLast?_concat] at hc
    simp only [Option.mem_def, Option.some.injEq] at hc
    subst hc
    exact symbol_not_literal hx

theorem concatTokens_head (tokens : List String)
    (hhead : ∀ l ∈ tokens.head?, isSymbolToken l = true) :
    ∀ c ∈ (concatTokens tokens).head?, isLiteralChar c = false := by
  cases tokens with
  | nil => intro c hc; simp [concatTokens] at hc
  | cons l rest =>
    have hl := hhead l (by simp)
    obtain ⟨x, hx, rfl⟩ := (isSymbolToken_iff l).mp hl
    intro c hc
    simp only [concatTokens, List.map_cons, String.data_singleton, List.flatten_cons,
      List.singleton_append, List.head?_cons, Option.mem_def, Option.some.injEq] at hc
    subst hc
    exact symbol_not_literal hx

theorem tokenize_recognized {expression : String} (h : tokenize expression ≠ []) :
    ∀ c ∈ expression.data, isRecognized c = true := by
  intro c hc
  cases hr : isRecognized c with
  | true => rfl
  | false => exact absurd ((tokenize_eq_nil_iff expression).mpr (Or.inr ⟨c, hc, hr⟩)) h

/-- Claim C13 as stated, refuted. `tokenize("1 2")` is `["12"]`: the literal token
`"12"` is not a contiguous substring of the input `"1 2"`. -/
theorem tokenize_literal_counterexample :
    tokenize "1 2" = ["12"] ∧ isSymbolToken "12" = false ∧ ¬ ("12".data <:+: "1 2".data) :=
  ⟨rfl, rfl, by decide⟩

/-- Claim C13, amended. Every literal token (a token that is not an operator or
parenthesis) returned by `tokenize` is a maximal contiguous run of literal characters
of the input with its spaces removed: it occurs there as a contiguous substring, and
it is neither preceded nor followed there by a literal character. -/
theorem tokenize_literal_run (expression : String) (before after : List String)
    (t : String) (h : tokenize expression = before ++ t :: after)
    (hlit : isSymbolToken t = false) :
    (t.data ≠ [] ∧ ∀ c ∈ t.data, isLiteralChar c = true) ∧
      ∃ pre post, (stripSpaces expression).data = pre ++ t.data ++ post ∧
        (∀ c ∈ pre.getLast?, isLiteralChar c = false) ∧
        (∀ c ∈ post.head?, isLiteralChar c = false) := by
  have hne : tokenize expression ≠ [] := by rw [h]; simp
  have hconcat := tokenizeLoop_concat expression.data [] [] (tokenize_recognized hne)
  have hsep : Separated (before ++ t :: after) := by
    rw [← h]
    exact tokenizeLoop_separated expression.data [] [] List.chain'_nil (by simp)
  have hshape : isLiteralToken t = true := by
    rcases tokenize_shape expression t (by rw [h]; simp) with hs | hl
    · rw [hlit] at hs; exact absurd hs (by decide)
    · exact hl
  refine ⟨literalToken_chars hshape, concatTokens before, concatTokens after, ?_, ?_, ?_⟩
  · have : concatTokens (tokenize expression)
        = concatTokens before ++ t.data ++ concatTokens after := by
      rw [h, concatTokens_append]
      simp [concatTokens]
    rw [← this]
    simpa [tokenize, stripSpaces, concatTokens] using hconcat.symm
  · apply concatTokens_getLast
    intro l hl
    have hch := (List.chain'_split.mp hsep).1
    have := (List.chain'_append.mp hch).2.2 l hl t (by simp)
    rcases this with h1 | h2
    · exact h1
    · rw [hlit] at h2; exact absurd h2 (by decide)
  · apply concatTokens_head
    intro l hl
    have hch := (List.chain'_split.mp hsep).2
    cases after with
    | nil => simp at hl
    | cons a rest =>
      simp only [List.head?_cons, Option.mem_def, Option.some.injEq] at hl
      subst hl
      rcases (List.chain'_cons.mp hch).1 with h1 | h2
      · rw [hlit] at h1; exact absurd h1 (by decide)
      · exact h2

theorem tokenize_literal_run_witness :
    tokenize "(1 2+a)" = ["("] ++ "12" :: ["+", "a", ")"] ∧ isSymbolToken "12" = false ∧
      (("12".data ≠ [] ∧ ∀ c ∈ "12".data, isLiteralChar c = true) ∧
        ∃ pre post, (stripSpaces "(1 2+a)").data = pre ++ "12".data ++ post ∧
          (∀ c ∈ pre.getLast?, isLiteralChar c = false) ∧
          (∀ c ∈ post.head?, isLiteralChar c = false)) :=
  ⟨rfl, rfl, tokenize_literal_run "(1 2+a)" ["("] ["+", "a", ")"] "12" rfl rfl⟩

/-! ## Token kinds -/

theorem symbolToken_cases {token : String} (h : isSymbolToken token = true) :
    isOperator token = true ∨ token = "(" ∨ token = ")" := by
  simp only [isSymbolToken, Bool.or_eq_true, beq_iff_eq] at h
  rcases h with ((((rfl | rfl) | rfl) | rfl) | rfl) | rfl
  · exact Or.inl rfl
  · exact Or.inl rfl
  · exact Or.inl rfl
  · exact Or.inl rfl
  · exact Or.inr (Or.inl rfl)
  · exact Or.inr (Or.inr rfl)

theorem literalToken_start {token : String} (h : isLiteralToken token = true) :
    isNumberToken token = true ∨ startsWithLower token = true := by
  obtain ⟨hne, hall⟩ := literalToken_chars h
  unfold isNumberToken startsWithLower
  cases hd : token.data with
  | nil => exact absurd hd hne
  | cons c cs =>
    have hc := hall c (by rw [hd]; simp)
    simp only [isLiteralChar, Bool.or_eq_true, Bool.and_eq_true, decide_eq_true_eq] at hc
    simp only [Bool.or_eq_true, Bool.and_eq_true, decide_eq_true_eq]
    rcases hc with (hc | hc) | hc
    · exact Or.inr hc
    · exact Or.inl (Or.inl hc)
    · exact Or.inl (Or.inr hc)

/-- Claim C14 as stated, refuted. `tokenize("1.2.3")` is the single token `"1.2.3"`
and `tokenize("ab")` is the single token `"ab"`; neither is a number literal with at
most one decimal point, a one-letter identifier, an operator or a parenthesis. -/
theorem tokenize_kinds_counterexample :
    tokenize "1.2.3" = ["1.2.3"] ∧
      isNumberLiteral "1.2.3" = false ∧ isLetterIdentifier "1.2.3" = false ∧
      isOperator "1.2.3" = false ∧ "1.2.3" ≠ "(" ∧ "1.2.3" ≠ ")" ∧
      tokenize "ab" = ["ab"] ∧
      isNumberLiteral "ab" = false ∧ isLetterIdentifier "ab" = false ∧
      isOperator "ab" = false ∧ "ab" ≠ "(" ∧ "ab" ≠ ")" :=
  ⟨rfl, rfl, rfl, rfl, by decide, by decide, rfl, rfl, rfl, rfl, by decide, by decide⟩

/-- Claim C14, amended. Every token returned by `tokenize` is one of the four
operators, a parenthesis, or a literal token, that is a non-empty string of lowercase
letters, digits and `'.'`; a literal token starts with a digit or `'.'` (it is then
parsed as a number by `evaluateRPN`) or with a lowercase letter (it is then treated as
an identifier). -/
theorem tokenize_token_kinds (expression : String) :
    ∀ t ∈ tokenize expression,
      isOperator t = true ∨ t = "(" ∨ t = ")" ∨
        (isLiteralToken t = true ∧ isNumberToken t = true) ∨
        (isLiteralToken t = true ∧ startsWithLower t = true) := by
  intro t ht
  rcases tokenize_shape expression t ht with hs | hl
  · rcases symbolToken_cases hs with h | h | h
    · exact Or.inl h
    · exact Or.inr (Or.inl h)
    · exact Or.inr (Or.inr (Or.inl h))
  · rcases literalToken_start hl with h | h
    · exact Or.inr (Or.inr (Or.inr (Or.inl ⟨hl, h⟩)))
    · exact Or.inr (Or.inr (Or.inr (Or.inr ⟨hl, h⟩)))

theorem tokenize_token_kinds_witness :
    "1.2.3" ∈ tokenize "a+1.2.3" ∧
      (isOperator "1.2.3" = true ∨ "1.2.3" = "(" ∨ "1.2.3" = ")" ∨
        (isLiteralToken "1.2.3" = true ∧ isNumberToken "1.2.3" = true) ∨
        (isLiteralToken "1.2.3" = true ∧ startsWithLower "1.2.3" = true)) :=
  have hm : "1.2.3" ∈ tokenize "a+1.2.3" := by decide
  ⟨hm, tokenize_token_kinds "a+1.2.3" "1.2.3" hm⟩

/-! ## Structure of the steps of `shuntingYard` -/

theorem operand_of_byte0 {token : String} {b : Nat} (hb : byte0 token = some b)
    (hc : (isIdentifier b || isDigit b) = true) : isOperandToken token = true := by
  unfold byte0 at hb
  unfold isOperandToken
  cases hd : token.data with
  | nil => simp [hd] at hb
  | cons c cs =>
    simp only [hd, Option.some.injEq] at hb
    have h9 : '9'.toNat = 57 := rfl
    have h0 : '0'.toNat = 48 := rfl
    have ha : 'a'.toNat = 97 := rfl
    have hz : 'z'.toNat = 122 := rfl
    have hdot : '.'.toNat = 46 := rfl
    simp only [isIdentifier, isDigit, Bool.or_eq_true, Bool.and_eq_true, decide_eq_true_eq,
      beq_iff_eq] at hc
    have hlead : utf8Lead c = b := hb
    have hlt : c.toNat < 0x80 := by
      by_contra hge
      unfold utf8Lead at hlead
      rw [if_neg hge] at hlead
      split_ifs at hlead <;> omega
    have hv : c.toNat = b := by
      rw [← hlead]; simp [utf8Lead, hlt]
    simp only [isOperandStart, Bool.or_eq_true, Bool.and_eq_true, decide_eq_true_eq]
    rcases hc with hc | hc | hc
    · exact Or.inr (by omega)
    · exact Or.inl (Or.inl (by omega))
    · exact Or.inl (Or.inr ((toNat_eq_dot c).mp (by omega)))

theorem popToParen_split (output stack : List String) :
    ∃ ops rest, stack = ops ++ rest ∧ (∀ x ∈ ops, x ≠ "(") ∧
      popToParen output stack = (output ++ ops, rest) ∧
      (rest = [] ∨ ∃ st, rest = "(" :: st) := by
  induction stack generalizing output with
  | nil => exact ⟨[], [], rfl, by simp, by simp [popToParen], Or.inl rfl⟩
  | cons top st ih =>
    by_cases ht : top = "("
    · subst ht
      exact ⟨[], "(" :: st, rfl, by simp, by simp [popToParen], Or.inr ⟨st, rfl⟩⟩
    · obtain ⟨ops, rest, hst, hops, hpop, hrest⟩ := ih (output ++ [top])
      refine ⟨top :: ops, rest, by simp [hst], ?_, ?_, hrest⟩
      · intro x hx
        rcases List.mem_cons.mp hx with rfl | hx
        · exact ht
        · exact hops x hx
      · simp [popToParen, ht, hpop]

theorem popHigher_split (token : String) (hp : 0 < precedence token)
    (output stack : List String) :
    ∃ ops rest, stack = ops ++ rest ∧ (∀ x ∈ ops, x ≠ "(") ∧
      popHigher token output stack = (output ++ ops, rest) := by
  induction stack generalizing output with
  | nil => exact ⟨[], [], rfl, by simp, by simp [popHigher]⟩
  | cons top st ih =>
    by_cases ht : precedence top ≥ precedence token
    · obtain ⟨ops, rest, hst, hops, hpop⟩ := ih (output ++ [top])
      refine ⟨top :: ops, rest, by simp [hst], ?_, ?_⟩
      · intro x hx
        rcases List.mem_cons.mp hx with rfl | hx
        · exact ne_lparen_of_precedence hp ht
        · exact hops x hx
      · simp [popHigher, ht, hpop]
    · exact ⟨[], top :: st, rfl, by simp, by simp [popHigher, ht]⟩

/-- The four ways in which an iteration of the loop of `shuntingYard` succeeds. -/
theorem shuntingStep_ok_cases {token : String} {output stack output' stack' : List String}
    (h : shuntingStep token output stack = .ok (output', stack')) :
    (isOperandToken token = true ∧ output' = output ++ [token] ∧ stack' = stack) ∨
      (token = "(" ∧ output' = output ∧ stack' = "(" :: stack) ∨
      (token = ")" ∧ ∃ ops, (∀ x ∈ ops, x ≠ "(") ∧ stack = ops ++ "(" :: stack' ∧
        output' = output ++ ops) ∨
      (isOperator token = true ∧ ∃ ops rest, (∀ x ∈ ops, x ≠ "(") ∧ stack = ops ++ rest ∧
        stack' = token :: rest ∧ output' = output ++ ops) := by
  unfold shuntingStep at h
  cases hb : byte0 token with
  | none => simp [hb] at h
  | some b =>
    simp only [hb] at h
    by_cases hc : (isIdentifier b || isDigit b) = true
    · simp only [if_pos hc, Except.ok.injEq, Prod.mk.injEq] at h
      exact Or.inl ⟨operand_of_byte0 hb hc, h.1.symm, h.2.symm⟩
    · simp only [if_neg hc] at h
      by_cases hl : token = "("
      · simp only [if_pos hl, Except.ok.injEq, Prod.mk.injEq] at h
        subst hl
        exact Or.inr (Or.inl ⟨rfl, h.1.symm, h.2.symm⟩)
      · simp only [if_neg hl] at h
        by_cases hr : token = ")"
        · simp only [if_pos hr] at h
          obtain ⟨ops, rest, hst, hops, hpop, hrest⟩ := popToParen_split output stack
          rw [hpop] at h
          rcases hrest with rfl | ⟨st, rfl⟩
          · simp at h
          · simp only [Except.ok.injEq, Prod.mk.injEq] at h
            obtain ⟨rfl, rfl⟩ := h
            exact Or.inr (Or.inr (Or.inl ⟨hr, ops, hops, hst, rfl⟩))
        · simp only [if_neg hr] at h
          by_cases ho : isOperator token = true
          · simp only [if_pos ho, Except.ok.injEq, Prod.mk.injEq] at h
            obtain ⟨op, rfl⟩ := (isOperator_iff_binop token).mp ho
            obtain ⟨ops, rest, hst, hops, hpop⟩ :=
              popHigher_split op.token (precedence_binop_pos op) output stack
            rw [hpop] at h
            obtain ⟨rfl, rfl⟩ := h
            exact Or.inr (Or.inr (Or.inr ⟨ho, ops, rest, hops, hst, rfl, rfl⟩))
          · simp [if_neg ho] at h

theorem drainStack_ok {output stack out : List String}
    (h : drainStack output stack = .ok out) :
    out = output ++ stack ∧ ∀ x ∈ stack, x ≠ "(" := by
  rw [drainStack_eq] at h
  by_cases hc : stack.count "(" = 0
  · simp only [if_pos hc, Except.ok.injEq] at h
    refine ⟨h.symm, fun x hx hxe => ?_⟩
    subst hxe
    exact absurd (List.count_pos_iff.mpr hx) (by omega)
  · simp [if_neg hc] at h

/-! ## The output of `shuntingYard` is a permutation of the non-parenthesis input -/

theorem filter_notParen_self {l : List String} (h1 : ∀ x ∈ l, x ≠ "(")
    (h2 : ∀ x ∈ l, x ≠ ")") : l.filter (fun t => !isParen t) = l := by
  apply List.filter_eq_self.mpr
  intro x hx
  simp [isParen, h1 x hx, h2 x hx]

theorem operand_not_paren {token : String} (h : isOperandToken token = true) :
    isParen token = false := by
  obtain ⟨h1, h2, _⟩ := operand_not_special h
  simp [isParen, h1, h2]

theorem operator_not_paren {token : String} (h : isOperator token = true) :
    isParen token = false := by
  obtain ⟨op, rfl⟩ := (isOperator_iff_binop token).mp h
  cases op <;> rfl

theorem operator_not_operand {token : String} (h : isOperator token = true) :
    isOperandToken token = false := by
  cases ho : isOperandToken token with
  | false => rfl
  | true =>
    rw [(operand_not_special ho).2.2] at h
    exact absurd h (by decide)

theorem shuntingLoop_perm (tokens output stack out : List String)
    (hst : ∀ x ∈ stack, x ≠ ")") (h : shuntingLoop tokens output stack = .ok out) :
    List.Perm out
      (output ++ stack.filter (fun t => !isParen t) ++ tokens.filter (fun t => !isParen t)) := by
  induction tokens generalizing output stack with
  | nil =>
    obtain ⟨rfl, hno⟩ := drainStack_ok h
    rw [filter_notParen_self hno hst]
    simp
  | cons t ts ih =>
    simp only [shuntingLoop] at h
    cases hstep : shuntingStep t output stack with
    | error e => simp [hstep] at h
    | ok st =>
      obtain ⟨o, s⟩ := st
      simp only [hstep] at h
      rcases shuntingStep_ok_cases hstep with ⟨hop, rfl, rfl⟩ | ⟨rfl, rfl, rfl⟩ |
        ⟨rfl, ops, hops, rfl, rfl⟩ | ⟨hop, ops, rest, hops, rfl, rfl, rfl⟩
      · refine (ih _ _ hst h).trans (List.perm_iff_count.mpr fun a => ?_)
        simp only [List.filter_cons, operand_not_paren hop, Bool.not_false, if_true,
          List.count_append, List.count_cons, List.count_nil]
        omega
      · have hst' : ∀ x ∈ "(" :: stack, x ≠ ")" := by
          intro x hx
          rcases List.mem_cons.mp hx with rfl | hx
          · decide
          · exact hst x hx
        refine (ih _ _ hst' h).trans (List.perm_iff_count.mpr fun a => ?_)
        have hp : isParen "(" = true := rfl
        simp only [List.filter_cons, hp, Bool.not_true, List.count_append]
        simp
      · have hst' : ∀ x ∈ s, x ≠ ")" := fun x hx => hst x (by simp [hx])
        have hops' : ∀ x ∈ ops, x ≠ ")" := fun x hx => hst x (by simp [hx])
        refine (ih _ _ hst' h).trans (List.perm_iff_count.mpr fun a => ?_)
        have hp : isParen "(" = true := rfl
        have hp' : isParen ")" = true := rfl
        simp only [List.filter_append, List.filter_cons, hp, hp', Bool.not_true,
          filter_notParen_self hops hops', List.count_append]
        simp only [Bool.false_eq_true, if_false]
        omega
      · have hst' : ∀ x ∈ t :: rest, x ≠ ")" := by
          intro x hx
          rcases List.mem_cons.mp hx with rfl | hx
          · rintro rfl; exact absurd hop (by decide)
          · exact hst x (by simp [hx])
        have hops' : ∀ x ∈ ops, x ≠ ")" := fun x hx => hst x (by simp [hx])
        refine (ih _ _ hst' h).trans (List.perm_iff_count.mpr fun a => ?_)
        simp only [List.filter_append, List.filter_cons, operator_not_paren hop, Bool.not_false,
          if_true, filter_notParen_self hops hops', List.count_append, List.count_cons]
        omega

theorem filter_operand_nil {l : List String} (h : ∀ x ∈ l, isOperandToken x = false) :
    l.filter isOperandToken = [] := by
  apply List.filter_eq_nil_iff.mpr
  intro x hx
  simp [h x hx]

theorem shuntingLoop_operands (tokens output stack out : List String)
    (hst : ∀ x ∈ stack, isOperandToken x = false)
    (h : shuntingLoop tokens output stack = .ok out) :
    out.filter isOperandToken
      = output.filter isOperandToken ++ tokens.filter isOperandToken := by
  induction tokens generalizing output stack with
  | nil =>
    obtain ⟨rfl, _⟩ := drainStack_ok h
    simp [filter_operand_nil hst]
  | cons t ts ih =>
    simp only [shuntingLoop] at h
    cases hstep : shuntingStep t output stack with
    | error e => simp [hstep] at h
    | ok st =>
      obtain ⟨o, s⟩ := st
      simp only [hstep] at h
      rcases shuntingStep_ok_cases hstep with ⟨hop, rfl, rfl⟩ | ⟨rfl, rfl, rfl⟩ |
        ⟨rfl, ops, hops, rfl, rfl⟩ | ⟨hop, ops, rest, hops, rfl, rfl, rfl⟩
      · rw [ih _ _ hst h]
        simp [List.filter_cons, hop]
      · have hst' : ∀ x ∈ "(" :: stack, isOperandToken x = false := by
          intro x hx
          rcases List.mem_cons.mp hx with rfl | hx
          · rfl
          · exact hst x hx
        have hp : isOperandToken "(" = false := rfl
        rw [ih _ _ hst' h]
        simp [List.filter_cons, hp]
      · have hst' : ∀ x ∈ s, isOperandToken x = false := fun x hx => hst x (by simp [hx])
        have hops' : ∀ x ∈ ops, isOperandToken x = false := fun x hx => hst x (by simp [hx])
        have hp : isOperandToken ")" = false := rfl
        rw [ih _ _ hst' h]
        simp [List.filter_cons, hp, filter_operand_nil hops']
      · have hst' : ∀ x ∈ t :: rest, isOperandToken x = false := by
          intro x hx
          rcases List.mem_cons.mp hx with rfl | hx
          · exact operator_not_operand hop
          · exact hst x (by simp [hx])
        have hops' : ∀ x ∈ ops, isOperandToken x = false := fun x hx => hst x (by simp [hx])
        rw [ih _ _ hst' h]
        simp [List.filter_cons, operator_not_operand hop, filter_operand_nil hops']

theorem shuntingYard_perm {tokens out : List String} (h : shuntingYard tokens = .ok out) :
    List.Perm out (tokens.filter (fun t => !isParen t)) := by
  simpa using shuntingLoop_perm tokens [] [] out (by simp) h

/-- Claim C17. For a sequence of operand, operator and parenthesis tokens on which
`shuntingYard` succeeds, the output is a permutation of the input with all `"("` and
`")"` removed, so its length is the number of non-parenthesis input tokens, and the
operand tokens appear in the output in the same relative order as in the input. -/
theorem shuntingYard_permutation (tokens out : List String)
    (_hg : ∀ t ∈ tokens, isGrammarToken t = true) (h : shuntingYard tokens = .ok out) :
    List.Perm out (tokens.filter (fun t => !isParen t)) ∧
      out.length = (tokens.filter (fun t => !isParen t)).length ∧
      out.filter isOperandToken = tokens.filter isOperandToken := by
  refine ⟨shuntingYard_perm h, (shuntingYard_perm h).length_eq, ?_⟩
  simpa using shuntingLoop_operands tokens [] [] out (by simp) h

theorem shuntingYard_permutation_witness :
    (∀ t ∈ ["3", "+", "5", "*", "(", "2", "-", "8", ")"], isGrammarToken t = true) ∧
      shuntingYard ["3", "+", "5", "*", "(", "2", "-", "8", ")"]
        = .ok ["3", "5", "2", "8", "-", "*", "+"] ∧
      List.Perm ["3", "5", "2", "8", "-", "*", "+"] ["3", "+", "5", "*", "2", "-", "8"] ∧
      ["3", "5", "2", "8", "-", "*", "+"].length = 7 ∧
      ["3", "5", "2", "8", "-", "*", "+"].filter isOperandToken = ["3", "5", "2", "8"] :=
  have hg : ∀ t ∈ ["3", "+", "5", "*", "(", "2", "-", "8", ")"], isGrammarToken t = true := by
    decide
  ⟨hg, rfl, shuntingYard_permutation _ _ hg rfl⟩

/-! ## The errors that each stage can return -/

theorem byte0_eq_none {token : String} (h : byte0 token = none) : token = "" := by
  unfold byte0 at h
  cases hd : token.data with
  | nil => exact String.ext_iff.mpr hd
  | cons c cs => simp [hd] at h

theorem not_grammar_of_unclassified {token : String} {b : Nat} (hb : byte0 token = some b)
    (hc : ¬ (isIdentifier b || isDigit b) = true) (hl : token ≠ "(") (hr : token ≠ ")")
    (ho : ¬ isOperator token = true) : isGrammarToken token = false := by
  cases hg : isGrammarToken token with
  | false => rfl
  | true =>
    simp only [isGrammarToken, Bool.or_eq_true, beq_iff_eq] at hg
    rcases hg with ((h | h) | h) | h
    · obtain ⟨b', hb', hc'⟩ := byte0_of_operand h
      rw [hb] at hb'
      cases hb'
      exact absurd hc' hc
    · exact absurd h ho
    · exact absurd h hl
    · exact absurd h hr

theorem shuntingStep_error_cases {token : String} {output stack : List String}
    {e : CalcError} (h : shuntingStep token output stack = .error e) :
    (token = "" ∧ e = .indexOutOfRange) ∨ e = .mismatchedParentheses ∨
      (e = .invalidToken token ∧ isGrammarToken token = false) := by
  unfold shuntingStep at h
  cases hb : byte0 token with
  | none =>
    simp only [hb, Except.error.injEq] at h
    exact Or.inl ⟨byte0_eq_none hb, h.symm⟩
  | some b =>
    simp only [hb] at h
    by_cases hc : (isIdentifier b || isDigit b) = true
    · rw [if_pos hc] at h
      cases h
    · simp only [if_neg hc] at h
      by_cases hl : token = "("
      · rw [if_pos hl] at h
        cases h
      · simp only [if_neg hl] at h
        by_cases hr : token = ")"
        · simp only [if_pos hr] at h
          rcases hp : popToParen output stack with ⟨o, _ | ⟨x, s⟩⟩
          · simp only [hp, Except.error.injEq] at h
            exact Or.inr (Or.inl h.symm)
          · simp only [hp] at h
            cases h
        · simp only [if_neg hr] at h
          by_cases ho : isOperator token = true
          · rw [if_pos ho] at h
            cases h
          · simp only [if_neg ho, Except.error.injEq] at h
            exact Or.inr (Or.inr ⟨h.symm, not_grammar_of_unclassified hb hc hl hr ho⟩)

theorem shuntingLoop_error_cases {tokens output stack : List String} {e : CalcError}
    (h : shuntingLoop tokens output stack = .error e) :
    e = .mismatchedParentheses ∨
      ∃ t ∈ tokens, (t = "" ∧ e = .indexOutOfRange) ∨
        (e = .invalidToken t ∧ isGrammarToken t = false) := by
  induction tokens generalizing output stack with
  | nil =>
    simp only [shuntingLoop, drainStack_eq] at h
    split_ifs at h
    simp only [Except.error.injEq] at h
    exact Or.inl h.symm
  | cons t ts ih =>
    simp only [shuntingLoop] at h
    cases hstep : shuntingStep t output stack with
    | error e' =>
      simp only [hstep, Except.error.injEq] at h
      subst h
      rcases shuntingStep_error_cases hstep with h1 | h2 | h3
      · exact Or.inr ⟨t, by simp, Or.inl h1⟩
      · exact Or.inl h2
      · exact Or.inr ⟨t, by simp, Or.inr h3⟩
    | ok st =>
      obtain ⟨o, s⟩ := st
      simp only [hstep] at h
      rcases ih h with h1 | ⟨x, hx, h2⟩
      · exact Or.inl h1
      · exact Or.inr ⟨x, List.mem_cons_of_mem _ hx, h2⟩

theorem rpnStep_binop_short {F : Type} (fl : Float64Ops F) (op : BinOp) (stack : List F)
    (h : stack.length < 2) : rpnStep fl op.token stack = .error .invalidRPN := by
  rcases stack with _ | ⟨y, _ | ⟨x, s⟩⟩
  · cases op <;> rfl
  · cases op <;> rfl
  · simp only [List.length_cons] at h
    omega

theorem rpnStep_error_cases {F : Type} {fl : Float64Ops F} {token : String} {stack : List F}
    {e : CalcError} (h : rpnStep fl token stack = .error e) :
    (token = "" ∧ e = .indexOutOfRange) ∨ e = .identifiersNotSupported ∨
      e = .parseFloatError token ∨ e = .invalidRPN ∨ e = .divisionByZero ∨
      (e = .invalidTokenInRPN token ∧ isOperandToken token = false ∧
        isOperator token = false) := by
  by_cases ho : isOperator token = true
  · obtain ⟨op, rfl⟩ := (isOperator_iff_binop token).mp ho
    rcases stack with _ | ⟨y, _ | ⟨x, s⟩⟩
    · rw [rpnStep_binop_short fl op [] (by simp)] at h
      exact Or.inr (Or.inr (Or.inr (Or.inl (Except.error.inj h).symm)))
    · rw [rpnStep_binop_short fl op [y] (by simp)] at h
      exact Or.inr (Or.inr (Or.inr (Or.inl (Except.error.inj h).symm)))
    · rw [rpnStep_binop] at h
      split_ifs at h
      exact Or.inr (Or.inr (Or.inr (Or.inr (Or.inl (Except.error.inj h).symm))))
  · unfold rpnStep at h
    cases hb : byte0 token with
    | none =>
      simp only [hb, Except.error.injEq] at h
      exact Or.inl ⟨byte0_eq_none hb, h.symm⟩
    | some b =>
      simp only [hb] at h
      by_cases hi : isIdentifier b = true
      · simp only [if_pos hi, Except.error.injEq] at h
        exact Or.inr (Or.inl h.symm)
      · simp only [if_neg hi] at h
        by_cases hd : isDigit b = true
        · simp only [if_pos hd] at h
          cases hp : fl.parseFloat token with
          | none =>
            simp only [hp, Except.error.injEq] at h
            exact Or.inr (Or.inr (Or.inl h.symm))
          | some v =>
            simp only [hp] at h
            cases h
        · simp only [if_neg hd, if_neg ho, Except.error.injEq] at h
          refine Or.inr (Or.inr (Or.inr (Or.inr (Or.inr ⟨h.symm, ?_, ?_⟩))))
          · cases hop : isOperandToken token with
            | false => rfl
            | true =>
              obtain ⟨b', hb', hc'⟩ := byte0_of_operand hop
              rw [hb] at hb'
              cases hb'
              simp only [Bool.or_eq_true] at hc'
              rcases hc' with h1 | h1
              · exact absurd h1 hi
              · exact absurd h1 hd
          · simpa using ho

theorem rpnLoop_error_cases {F : Type} {fl : Float64Ops F} {rpn : List String}
    {stack : List F} {e : CalcError} (h : rpnLoop fl rpn stack = .error e) :
    e = .identifiersNotSupported ∨ e = .invalidRPN ∨ e = .divisionByZero ∨
      ∃ t ∈ rpn, (t = "" ∧ e = .indexOutOfRange) ∨ e = .parseFloatError t ∨
        (e = .invalidTokenInRPN t ∧ isOperandToken t = false ∧ isOperator t = false) := by
  induction rpn generalizing stack with
  | nil => simp [rpnLoop] at h
  | cons t ts ih =>
    simp only [rpnLoop] at h
    cases hstep : rpnStep fl t stack with
    | error e' =>
      simp only [hstep, Except.error.injEq] at h
      subst h
      rcases rpnStep_error_cases hstep with h1 | h2 | h3 | h4 | h5 | h6
      · exact Or.inr (Or.inr (Or.inr ⟨t, by simp, Or.inl h1⟩))
      · exact Or.inl h2
      · exact Or.inr (Or.inr (Or.inr ⟨t, by simp, Or.inr (Or.inl h3)⟩))
      · exact Or.inr (Or.inl h4)
      · exact Or.inr (Or.inr (Or.inl h5))
      · exact Or.inr (Or.inr (Or.inr ⟨t, by simp, Or.inr (Or.inr h6)⟩))
    | ok st =>
      simp only [hstep] at h
      rcases ih h with h1 | h1 | h1 | ⟨x, hx, h2⟩
      · exact Or.inl h1
      · exact Or.inr (Or.inl h1)
      · exact Or.inr (Or.inr (Or.inl h1))
      · exact Or.inr (Or.inr (Or.inr ⟨x, List.mem_cons_of_mem _ hx, h2⟩))

theorem evaluateRPN_error_cases {F : Type} {fl : Float64Ops F} {rpn : List String}
    {e : CalcError} (h : evaluateRPN fl rpn = .error e) :
    e = .identifiersNotSupported ∨ e = .invalidRPN ∨ e = .divisionByZero ∨
      ∃ t ∈ rpn, (t = "" ∧ e = .indexOutOfRange) ∨ e = .parseFloatError t ∨
        (e = .invalidTokenInRPN t ∧ isOperandToken t = false ∧ isOperator t = false) := by
  unfold evaluateRPN at h
  cases hl : rpnLoop fl rpn [] with
  | error e' =>
    simp only [hl, Except.error.injEq] at h
    subst h
    exact rpnLoop_error_cases hl
  | ok st =>
    rcases st with _ | ⟨v, _ | ⟨w, s⟩⟩
    · simp only [hl, Except.error.injEq] at h
      exact Or.inr (Or.inl h.symm)
    · simp [hl] at h
    · simp only [hl, Except.error.injEq] at h
      exact Or.inr (Or.inl h.symm)

/-! ## Classification of the tokens along the pipeline -/

theorem operand_of_number {token : String} (h : isNumberToken token = true) :
    isOperandToken token = true := by
  unfold isNumberToken at h
  unfold isOperandToken
  cases hd : token.data with
  | nil => simp [hd] at h
  | cons c cs =>
    simp only [hd] at h
    simp only [isOperandStart, Bool.or_eq_true]
    exact Or.inl (by simpa using h)

theorem operand_of_lower {token : String} (h : startsWithLower token = true) :
    isOperandToken token = true := by
  unfold startsWithLower at h
  unfold isOperandToken
  cases hd : token.data with
  | nil => simp [hd] at h
  | cons c cs =>
    simp only [hd] at h
    simp only [isOperandStart, Bool.or_eq_true]
    exact Or.inr h

theorem operand_start {token : String} (h : isOperandToken token = true) :
    startsWithLower token = true ∨ isNumberToken token = true := by
  unfold isOperandToken at h
  unfold startsWithLower isNumberToken
  cases hd : token.data with
  | nil => simp [hd] at h
  | cons c cs =>
    simp only [hd, isOperandStart, Bool.or_eq_true] at h
    rcases h with h | h
    · exact Or.inr (by simpa using h)
    · exact Or.inl h

theorem tokenize_grammar (expression : String) :
    ∀ t ∈ tokenize expression, isGrammarToken t = true := by
  intro t ht
  simp only [isGrammarToken, Bool.or_eq_true, beq_iff_eq]
  rcases tokenize_shape expression t ht with hs | hl
  · rcases symbolToken_cases hs with h | h | h
    · exact Or.inl (Or.inl (Or.inr h))
    · exact Or.inl (Or.inr h)
    · exact Or.inr h
  · rcases literalToken_start hl with h | h
    · exact Or.inl (Or.inl (Or.inl (operand_of_number h)))
    · exact Or.inl (Or.inl (Or.inl (operand_of_lower h)))

theorem shuntingYard_output_mem {tokens out : List String} (h : shuntingYard tokens = .ok out)
    {t : String} (ht : t ∈ out) : t ∈ tokens ∧ isParen t = false := by
  have := (shuntingYard_perm h).mem_iff.mp ht
  simp only [List.mem_filter, Bool.not_eq_true'] at this
  exact this

theorem shuntingYard_output_grammar {tokens out : List String}
    (hg : ∀ t ∈ tokens, isGrammarToken t = true) (h : shuntingYard tokens = .ok out) :
    ∀ t ∈ out, isOperandToken t = true ∨ isOperator t = true := by
  intro t ht
  obtain ⟨hm, hp⟩ := shuntingYard_output_mem h ht
  have := hg t hm
  simp only [isGrammarToken, Bool.or_eq_true, beq_iff_eq] at this
  simp only [isParen, Bool.or_eq_false_iff, beq_eq_false_iff_ne] at hp
  rcases this with ((h1 | h1) | h1) | h1
  · exact Or.inl h1
  · exact Or.inr h1
  · exact absurd h1 hp.1
  · exact absurd h1 hp.2

theorem grammar_ne_empty {token : String} (h : isGrammarToken token = true) : token ≠ "" := by
  rintro rfl
  exact absurd h (by decide)

/-- The errors that `Calc` can return on any input. -/
theorem Calc_error_cases {F : Type} {fl : Float64Ops F} {expression : String} {e : CalcError}
    (h : Calc fl expression = .error e) :
    e = .emptyExpression ∨ e = .mismatchedParentheses ∨ e = .identifiersNotSupported ∨
      e = .invalidRPN ∨ e = .divisionByZero ∨ ∃ t, e = .parseFloatError t := by
  unfold Calc at h
  by_cases hlen : (tokenize expression).length = 0
  · rw [if_pos hlen] at h
    exact Or.inl (Except.error.inj h).symm
  · rw [if_neg hlen] at h
    have hg := tokenize_grammar expression
    cases hs : shuntingYard (tokenize expression) with
    | error e' =>
      simp only [hs, Except.error.injEq] at h
      subst h
      unfold shuntingYard at hs
      rcases shuntingLoop_error_cases hs with h1 | ⟨t, ht, ⟨rfl, _⟩ | ⟨_, h2⟩⟩
      · exact Or.inr (Or.inl h1)
      · exact absurd rfl (grammar_ne_empty (hg "" ht))
      · rw [hg t ht] at h2
        exact absurd h2 (by decide)
    | ok out =>
      simp only [hs] at h
      have hout := shuntingYard_output_grammar hg hs
      rcases evaluateRPN_error_cases h with h1 | h1 | h1 | ⟨t, ht, ⟨rfl, _⟩ | h2 | ⟨_, h3, h4⟩⟩
      · exact Or.inr (Or.inr (Or.inl h1))
      · exact Or.inr (Or.inr (Or.inr (Or.inl h1)))
      · exact Or.inr (Or.inr (Or.inr (Or.inr (Or.inl h1))))
      · rcases hout "" ht with h5 | h5 <;> exact absurd h5 (by decide)
      · exact Or.inr (Or.inr (Or.inr (Or.inr (Or.inr ⟨t, h2⟩))))
      · rcases hout t ht with h5 | h5
        · rw [h3] at h5; exact absurd h5 (by decide)
        · rw [h4] at h5; exact absurd h5 (by decide)

/-- Claim C15. `Calc` never returns the invalid-token error of `shuntingYard` nor the
unknown-operator or invalid-token-in-RPN errors of `evaluateRPN`: every token of
`tokenize` is an operand, an operator or a parenthesis for `shuntingYard`, and every
token of the output of `shuntingYard` is an identifier, a number or an operator for
`evaluateRPN`. -/
theorem Calc_tokens_classified {F : Type} (fl : Float64Ops F) (expression : String) :
    (∀ t : String, Calc fl expression ≠ .error (.invalidToken t) ∧
        Calc fl expression ≠ .error (.unknownOperator t) ∧
        Calc fl expression ≠ .error (.invalidTokenInRPN t)) ∧
      (∀ t ∈ tokenize expression,
        isOperandToken t = true ∨ isOperator t = true ∨ t = "(" ∨ t = ")") ∧
      (∀ out, shuntingYard (tokenize expression) = .ok out →
        ∀ t ∈ out, startsWithLower t = true ∨ isNumberToken t = true ∨
          isOperator t = true) := by
  refine ⟨fun t => ⟨fun h => ?_, fun h => ?_, fun h => ?_⟩, fun t ht => ?_, fun out hs t ht => ?_⟩
  · rcases Calc_error_cases h with h1 | h1 | h1 | h1 | h1 | ⟨x, h1⟩ <;> cases h1
  · rcases Calc_error_cases h with h1 | h1 | h1 | h1 | h1 | ⟨x, h1⟩ <;> cases h1
  · rcases Calc_error_cases h with h1 | h1 | h1 | h1 | h1 | ⟨x, h1⟩ <;> cases h1
  · have := tokenize_grammar expression t ht
    simp only [isGrammarToken, Bool.or_eq_true, beq_iff_eq] at this
    tauto
  · rcases shuntingYard_output_grammar (tokenize_grammar expression) hs t ht with h1 | h1
    · rcases operand_start h1 with h2 | h2
      · exact Or.inl h2
      · exact Or.inr (Or.inl h2)
    · exact Or.inr (Or.inr h1)

/-! ## No index is out of range -/

theorem literalChar_ascii {c : Char} (h : isLiteralChar c = true) : c.toNat < 128 := by
  simp only [isLiteralChar, Bool.or_eq_true, Bool.and_eq_true, decide_eq_true_eq] at h
  have h9 : '9'.toNat = 57 := rfl
  have hz : 'z'.toNat = 122 := rfl
  rcases h with (h | h) | h
  · omega
  · omega
  · subst h; decide

theorem tokenize_nonempty_ascii (expression : String) :
    ∀ t ∈ tokenize expression, t ≠ "" ∧ ∀ c ∈ t.data, c.toNat < 128 := by
  intro t ht
  refine ⟨grammar_ne_empty (tokenize_grammar expression t ht), ?_⟩
  rcases tokenize_shape expression t ht with hs | hl
  · simp only [isSymbolToken, Bool.or_eq_true, beq_iff_eq] at hs
    rcases hs with ((((rfl | rfl) | rfl) | rfl) | rfl) | rfl <;> decide
  · exact fun c hc => literalChar_ascii ((literalToken_chars hl).2 c hc)

theorem shuntingStep_ne_panic {token : String} (h : token ≠ "")
    (output stack : List String) :
    shuntingStep token output stack ≠ .error .indexOutOfRange := by
  intro he
  rcases shuntingStep_error_cases he with ⟨h1, _⟩ | h1 | ⟨h1, _⟩
  · exact h h1
  · cases h1
  · cases h1

theorem drainStack_ne_panic (output stack : List String) :
    drainStack output stack ≠ .error .indexOutOfRange := by
  rw [drainStack_eq]
  split_ifs <;> simp

/-- Claim C16. No stage of `Calc` indexes out of range: every token returned by
`tokenize` is a non-empty ASCII string and every token in the output of `shuntingYard`
is one of its input tokens, so the `token[0]` accesses are defined and `Calc` never
panics; and on a non-empty token no step of `shuntingYard` or `evaluateRPN` panics
whatever the length of the stack, the stack accesses being guarded. -/
theorem Calc_no_index_out_of_range {F : Type} (fl : Float64Ops F) (expression : String) :
    Calc fl expression ≠ .error .indexOutOfRange ∧
      (∀ t ∈ tokenize expression, t ≠ "" ∧ ∀ c ∈ t.data, c.toNat < 128) ∧
      (∀ out, shuntingYard (tokenize expression) = .ok out →
        ∀ t ∈ out, t ∈ tokenize expression) ∧
      (∀ (t : String) (output stack : List String), t ≠ "" →
        shuntingStep t output stack ≠ .error .indexOutOfRange) ∧
      (∀ output stack : List String, drainStack output stack ≠ .error .indexOutOfRange) ∧
      (∀ (t : String) (stack : List F), t ≠ "" →
        rpnStep fl t stack ≠ .error .indexOutOfRange) := by
  refine ⟨fun h => ?_, tokenize_nonempty_ascii expression,
    fun out hs t ht => (shuntingYard_output_mem hs ht).1,
    fun t output stack ht => shuntingStep_ne_panic ht output stack,
    drainStack_ne_panic, fun t stack ht => rpnStep_ne_panic fl ht stack⟩
  rcases Calc_error_cases h with h1 | h1 | h1 | h1 | h1 | ⟨x, h1⟩ <;> cases h1

/-! ## Operand and operator counts of an evaluated expression -/

theorem rpnStep_ok_cases {F : Type} {fl : Float64Ops F} {token : String}
    {stack stack' : List F} (h : rpnStep fl token stack = .ok stack') :
    (isOperandToken token = true ∧ isOperator token = false ∧
        stack'.length = stack.length + 1) ∨
      (isOperator token = true ∧ isOperandToken token = false ∧
        stack'.length + 1 = stack.length) := by
  by_cases ho : isOperator token = true
  · obtain ⟨op, rfl⟩ := (isOperator_iff_binop token).mp ho
    rcases stack with _ | ⟨y, _ | ⟨x, s⟩⟩
    · rw [rpnStep_binop_short fl op [] (by simp)] at h
      cases h
    · rw [rpnStep_binop_short fl op [y] (by simp)] at h
      cases h
    · rw [rpnStep_binop] at h
      split_ifs at h
      simp only [Except.ok.injEq] at h
      subst h
      exact Or.inr ⟨ho, operator_not_operand ho, by simp⟩
  · unfold rpnStep at h
    cases hb : byte0 token with
    | none =>
      simp only [hb] at h
      cases h
    | some b =>
      simp only [hb] at h
      by_cases hi : isIdentifier b = true
      · rw [if_pos hi] at h
        cases h
      · simp only [if_neg hi] at h
        by_cases hd : isDigit b = true
        · simp only [if_pos hd] at h
          cases hp : fl.parseFloat token with
          | none =>
            simp only [hp] at h
            cases h
          | some v =>
            simp only [hp, Except.ok.injEq] at h
            subst h
            exact Or.inl ⟨operand_of_byte0 hb (by simp [hd]), by simpa using ho, by simp⟩
        · simp only [if_neg hd, if_neg ho] at h
          cases h

theorem rpnLoop_counts {F : Type} {fl : Float64Ops F} {rpn : List String}
    {stack stack' : List F} (h : rpnLoop fl rpn stack = .ok stack') :
    stack'.length + rpn.countP isOperator = stack.length + rpn.countP isOperandToken := by
  induction rpn generalizing stack with
  | nil =>
    simp only [rpnLoop, Except.ok.injEq] at h
    subst h
    simp
  | cons t ts ih =>
    simp only [rpnLoop] at h
    cases hstep : rpnStep fl t stack with
    | error e =>
      simp only [hstep] at h
      cases h
    | ok st =>
      simp only [hstep] at h
      have := ih h
      rcases rpnStep_ok_cases hstep with ⟨h1, h2, h3⟩ | ⟨h1, h2, h3⟩
      · simp only [List.countP_cons, h1, h2, if_true]
        simp only [Bool.false_eq_true, if_false]
        omega
      · simp only [List.countP_cons, h1, h2, if_true]
        simp only [Bool.false_eq_true, if_false]
        omega

theorem evaluateRPN_counts {F : Type} {fl : Float64Ops F} {rpn : List String} {v : F}
    (h : evaluateRPN fl rpn = .ok v) :
    rpn.countP isOperandToken = rpn.countP isOperator + 1 := by
  unfold evaluateRPN at h
  cases hl : rpnLoop fl rpn [] with
  | error e =>
    simp only [hl] at h
    cases h
  | ok st =>
    have := rpnLoop_counts hl
    rcases st with _ | ⟨w, _ | ⟨u, s⟩⟩
    · simp only [hl] at h
      cases h
    · simp only [List.length_singleton, List.length_nil] at this
      omega
    · simp only [hl] at h
      cases h

theorem countP_filter_notParen (p : String → Bool) (hp : ∀ t, p t = true → isParen t = false)
    (tokens : List String) :
    (tokens.filter (fun t => !isParen t)).countP p = tokens.countP p := by
  induction tokens with
  | nil => rfl
  | cons t ts ih =>
    cases hpar : isParen t with
    | false => simp [List.filter_cons, hpar, List.countP_cons, ih]
    | true =>
      have : p t = false := by
        cases hpt : p t with
        | false => rfl
        | true => rw [hp t hpt] at hpar; exact absurd hpar (by decide)
      simp [List.filter_cons, hpar, List.countP_cons, ih, this]

theorem shuntingYard_counts {tokens out : List String} (h : shuntingYard tokens = .ok out) :
    out.countP isOperandToken = tokens.countP isOperandToken ∧
      out.countP isOperator = tokens.countP isOperator := by
  have hperm := shuntingYard_perm h
  exact ⟨(hperm.countP_eq _).trans
      (countP_filter_notParen _ (fun _ ht => operand_not_paren ht) tokens),
    (hperm.countP_eq _).trans
      (countP_filter_notParen _ (fun _ ht => operator_not_paren ht) tokens)⟩

theorem Calc_counts {F : Type} {fl : Float64Ops F} {expression : String} {v : F}
    (h : Calc fl expression = .ok v) :
    (tokenize expression).countP isOperandToken
      = (tokenize expression).countP isOperator + 1 := by
  unfold Calc at h
  split_ifs at h
  cases hs : shuntingYard (tokenize expression) with
  | error e =>
    simp only [hs] at h
    cases h
  | ok out =>
    simp only [hs] at h
    obtain ⟨h1, h2⟩ := shuntingYard_counts hs
    rw [← h1, ← h2]
    exact evaluateRPN_counts h

/-- Claim C19. `Calc` returns a value only if the tokenization contains exactly one
more operand token than operator tokens; in particular `"-5"`, with a leading unary
operator, is rejected with the invalid-RPN error. -/
theorem Calc_value_operand_count {F : Type} (fl : Float64Ops F) (ofInt : Int → F)
    (h : ExactOnIntegers fl ofInt) (expression : String) (v : F)
    (hv : Calc fl expression = .ok v) :
    (tokenize expression).countP isOperandToken
        = (tokenize expression).countP isOperator + 1 ∧
      Calc fl "-5" = .error .invalidRPN := by
  refine ⟨Calc_counts hv, ?_⟩
  have ht : tokenize "-5" = ["-", "5"] := rfl
  have hs : shuntingYard ["-", "5"] = .ok ["5", "-"] := rfl
  have s1 := rpnLoop_digit h '5' rfl ["-"] []
  have hrun : rpnLoop fl ["5", "-"] [] = .error .invalidRPN := s1.trans rfl
  unfold Calc
  rw [ht, hs]
  simp [evaluateRPN, hrun]

theorem Calc_integerOps_example : Calc integerOps "3 + 5 * (2 - 8)" = .ok (-27) := by
  have ht : tokenize "3 + 5 * (2 - 8)" = ["3", "+", "5", "*", "(", "2", "-", "8", ")"] := rfl
  have hs : shuntingYard ["3", "+", "5", "*", "(", "2", "-", "8", ")"]
      = .ok ["3", "5", "2", "8", "-", "*", "+"] := rfl
  unfold Calc
  rw [ht, hs]
  exact evaluateRPN_example integerOps id integerOps_exact

theorem Calc_value_operand_count_witness :
    ExactOnIntegers integerOps id ∧ Calc integerOps "3 + 5 * (2 - 8)" = .ok (-27) ∧
      ((tokenize "3 + 5 * (2 - 8)").countP isOperandToken
          = (tokenize "3 + 5 * (2 - 8)").countP isOperator + 1 ∧
        Calc integerOps "-5" = .error .invalidRPN) :=
  ⟨integerOps_exact, Calc_integerOps_example,
    Calc_value_operand_count integerOps id integerOps_exact "3 + 5 * (2 - 8)" (-27)
      Calc_integerOps_example⟩

/-! ## When `evaluateRPN` returns a value on numbers and operators -/

theorem number_not_operator {token : String} (h : isNumberToken token = true) :
    isOperator token = false :=
  (operand_not_special (operand_of_number h)).2.2

theorem operator_not_number {token : String} (h : isOperator token = true) :
    isNumberToken token = false := by
  cases hn : isNumberToken token with
  | false => rfl
  | true => rw [number_not_operator hn] at h; exact absurd h (by decide)

theorem postfixScan_number {token : String} (h : isNumberToken token = true)
    (rest : List String) (n : Nat) :
    postfixScan (token :: rest) n = postfixScan rest (n + 1) := by
  obtain ⟨b, hb, _, hd⟩ := byte0_of_number h
  simp [postfixScan, hb, hd]

theorem postfixScan_operator (op : BinOp) (rest : List String) (n : Nat) :
    postfixScan (op.token :: rest) n
      = if 2 ≤ n then postfixScan rest (n - 1) else none := by
  cases op <;> simp [postfixScan, BinOp.token, byte0, utf8Lead, isIdentifier, isDigit, isOperator]

theorem postfixScan_eq_some_iff (tokens : List String)
    (hall : ∀ t ∈ tokens, isNumberToken t = true ∨ isOperator t = true) (n k : Nat) :
    postfixScan tokens n = some k ↔
      (∀ p ∈ tokens.inits, p ≠ [] → p.countP isOperator < n + p.countP isNumberToken) ∧
        k + tokens.countP isOperator = n + tokens.countP isNumberToken := by
  induction tokens generalizing n with
  | nil =>
    have hin : ([] : List String).inits = [[]] := rfl
    simp only [postfixScan, Option.some.injEq, hin, List.mem_singleton,
      List.countP_nil, Nat.add_zero]
    constructor
    · rintro rfl
      exact ⟨fun p hp hne => absurd hp hne, rfl⟩
    · rintro ⟨_, h⟩
      exact h.symm
  | cons t ts ih =>
    have hts : ∀ x ∈ ts, isNumberToken x = true ∨ isOperator x = true :=
      fun x hx => hall x (List.mem_cons_of_mem _ hx)
    have hpre : ∀ P : List String → Prop,
        (∀ q ∈ (t :: ts).inits, q ≠ [] → P q) ↔ ∀ p ∈ ts.inits, P (t :: p) := by
      intro P
      simp only [List.inits_cons, List.mem_cons, List.mem_map]
      constructor
      · intro h p hp
        exact h (t :: p) (Or.inr ⟨p, hp, rfl⟩) (by simp)
      · rintro h q (rfl | ⟨p, hp, rfl⟩) hq
        · exact absurd rfl hq
        · exact h p hp
    rw [hpre]
    rcases hall t (List.mem_cons_self _ _) with hn | ho
    · have hno := number_not_operator hn
      rw [postfixScan_number hn, ih hts]
      simp only [List.countP_cons, hn, hno, if_true, Bool.false_eq_true, if_false, Nat.add_zero]
      constructor
      · rintro ⟨h1, h2⟩
        refine ⟨fun p hp => ?_, by omega⟩
        by_cases hp0 : p = []
        · subst hp0; simp
        · have := h1 p hp hp0; omega
      · rintro ⟨h1, h2⟩
        exact ⟨fun p hp _ => by have := h1 p hp; omega, by omega⟩
    · have hnn := operator_not_number ho
      obtain ⟨op, rfl⟩ := (isOperator_iff_binop t).mp ho
      rw [postfixScan_operator]
      simp only [List.countP_cons, ho, hnn, if_true, Bool.false_eq_true, if_false, Nat.add_zero]
      by_cases h2 : 2 ≤ n
      · rw [if_pos h2, ih hts]
        constructor
        · rintro ⟨h1, h3⟩
          refine ⟨fun p hp => ?_, by omega⟩
          by_cases hp0 : p = []
          · subst hp0; simp; omega
          · have := h1 p hp hp0; omega
        · rintro ⟨h1, h3⟩
          exact ⟨fun p hp _ => by have := h1 p hp; omega, by omega⟩
      · rw [if_neg h2]
        constructor
        · intro h; cases h
        · rintro ⟨h1, _⟩
          have := h1 [] (by simp)
          simp at this
          omega

theorem rpnLoop_scan {F : Type} (fl : Float64Ops F) (tokens : List String)
    (hall : ∀ t ∈ tokens, WellFormedNumber fl t ∨ isOperator t = true) (stack : List F)
    (hnz : ∀ (pre rest : List String) (a b : F) (st : List F),
      tokens = pre ++ "/" :: rest → rpnLoop fl pre stack = .ok (b :: a :: st) →
      fl.eqZero b = false) :
    (∀ k, postfixScan tokens stack.length = some k →
        ∃ st, rpnLoop fl tokens stack = .ok st ∧ st.length = k) ∧
      (postfixScan tokens stack.length = none →
        rpnLoop fl tokens stack = .error .invalidRPN) := by
  induction tokens generalizing stack with
  | nil =>
    refine ⟨fun k hk => ⟨stack, rfl, ?_⟩, fun h => ?_⟩
    · simpa [postfixScan] using hk
    · simp [postfixScan] at h
  | cons t ts ih =>
    have hts : ∀ x ∈ ts, WellFormedNumber fl x ∨ isOperator x = true :=
      fun x hx => hall x (List.mem_cons_of_mem _ hx)
    rcases hall t (List.mem_cons_self _ _) with ⟨hn, hp⟩ | ho
    · obtain ⟨v, hv⟩ := Option.isSome_iff_exists.mp hp
      have hstep := rpnLoop_number fl hn hv ts stack
      have hnz' : ∀ (pre rest : List String) (a b : F) (st : List F),
          ts = pre ++ "/" :: rest → rpnLoop fl pre (v :: stack) = .ok (b :: a :: st) →
          fl.eqZero b = false := by
        intro pre rest a b st hsplit hrun
        refine hnz (t :: pre) rest a b st (by rw [hsplit]; rfl) ?_
        rw [rpnLoop_number fl hn hv pre stack]
        exact hrun
      have := ih hts (v :: stack) hnz'
      rw [postfixScan_number hn, hstep]
      simpa using this
    · obtain ⟨op, rfl⟩ := (isOperator_iff_binop t).mp ho
      rw [postfixScan_operator]
      rcases stack with _ | ⟨y, _ | ⟨x, s⟩⟩
      · have hstep : rpnLoop fl (op.token :: ts) [] = .error .invalidRPN := by
          simp [rpnLoop, rpnStep_binop_short fl op [] (by simp)]
        simp [hstep]
      · have hstep : rpnLoop fl (op.token :: ts) [y] = .error .invalidRPN := by
          simp [rpnLoop, rpnStep_binop_short fl op [y] (by simp)]
        simp [hstep]
      · have hz : ¬ (op = .divide ∧ fl.eqZero y = true) := by
          rintro ⟨rfl, hzero⟩
          have := hnz [] ts x y s rfl rfl
          rw [this] at hzero
          exact absurd hzero (by decide)
        have hstep : rpnLoop fl (op.token :: ts) (y :: x :: s)
            = rpnLoop fl ts (op.apply fl x y :: s) := by
          rw [rpnLoop_binop, if_neg hz]
        have hnz' : ∀ (pre rest : List String) (a b : F) (st : List F),
            ts = pre ++ "/" :: rest →
            rpnLoop fl pre (op.apply fl x y :: s) = .ok (b :: a :: st) →
            fl.eqZero b = false := by
          intro pre rest a b st hsplit hrun
          refine hnz (op.token :: pre) rest a b st (by rw [hsplit]; rfl) ?_
          rw [rpnLoop_binop, if_neg hz]
          exact hrun
        have := ih hts (op.apply fl x y :: s) hnz'
        have h2 : 2 ≤ (y :: x :: s).length := by simp
        rw [if_pos h2, hstep]
        simpa using this

theorem evaluateRPN_scan {F : Type} (fl : Float64Ops F) (rpn : List String)
    (hall : ∀ t ∈ rpn, WellFormedNumber fl t ∨ isOperator t = true)
    (hnz : NoZeroDivision fl rpn) :
    (postfixScan rpn 0 = some 1 → ∃ v, evaluateRPN fl rpn = .ok v) ∧
      (postfixScan rpn 0 ≠ some 1 → evaluateRPN fl rpn = .error .invalidRPN) := by
  obtain ⟨hsome, hnone⟩ := rpnLoop_scan fl rpn hall [] hnz
  simp only [List.length_nil] at hsome hnone
  unfold evaluateRPN
  constructor
  · intro h
    obtain ⟨st, hst, hlen⟩ := hsome 1 h
    rcases st with _ | ⟨v, _ | ⟨w, s⟩⟩
    · simp at hlen
    · exact ⟨v, by simp [hst]⟩
    · simp at hlen
  · intro h
    cases hscan : postfixScan rpn 0 with
    | none => simp [hnone hscan]
    | some k =>
      obtain ⟨st, hst, hlen⟩ := hsome k hscan
      rcases st with _ | ⟨v, _ | ⟨w, s⟩⟩
      · simp [hst]
      · simp only [List.length_singleton] at hlen
        rw [← hlen] at hscan
        exact absurd hscan h
      · simp [hst]

theorem scan_one_iff_counts {F : Type} (fl : Float64Ops F) (rpn : List String)
    (hall : ∀ t ∈ rpn, WellFormedNumber fl t ∨ isOperator t = true) :
    postfixScan rpn 0 = some 1 ↔ NonemptyPrefixMoreNumbers rpn ∧ OneMoreNumber rpn := by
  have hall' : ∀ t ∈ rpn, isNumberToken t = true ∨ isOperator t = true := by
    intro t ht
    rcases hall t ht with h | h
    · exact Or.inl h.1
    · exact Or.inr h
  rw [postfixScan_eq_some_iff rpn hall' 0 1]
  simp only [NonemptyPrefixMoreNumbers, OneMoreNumber, Nat.zero_add]
  constructor
  · rintro ⟨h1, h2⟩; exact ⟨h1, by omega⟩
  · rintro ⟨h1, h2⟩; exact ⟨h1, by omega⟩

/-- Claim C12. On a sequence of well-formed number-literal tokens and operator tokens
in which no division is applied to a zero divisor, `evaluateRPN` returns a value if
and only if every prefix (every non-empty initial segment) contains strictly more
number tokens than operator tokens and the whole sequence contains exactly one more
number token than operator tokens; otherwise it fails with the invalid-RPN error. -/
theorem evaluateRPN_value_iff {F : Type} (fl : Float64Ops F) (rpn : List String)
    (hall : ∀ t ∈ rpn, WellFormedNumber fl t ∨ isOperator t = true)
    (hnz : NoZeroDivision fl rpn) :
    ((∃ v, evaluateRPN fl rpn = .ok v) ↔
        (NonemptyPrefixMoreNumbers rpn ∧ OneMoreNumber rpn)) ∧
      (¬ (NonemptyPrefixMoreNumbers rpn ∧ OneMoreNumber rpn) →
        evaluateRPN fl rpn = .error .invalidRPN) := by
  obtain ⟨hok, herr⟩ := evaluateRPN_scan fl rpn hall hnz
  rw [← scan_one_iff_counts fl rpn hall]
  refine ⟨⟨fun hv => ?_, hok⟩, herr⟩
  by_contra hne
  obtain ⟨v, hv⟩ := hv
  rw [herr hne] at hv
  cases hv

theorem noZeroDivision_of_no_divide {F : Type} (fl : Float64Ops F) (rpn : List String)
    (h : "/" ∉ rpn) : NoZeroDivision fl rpn := by
  intro pre rest a b stack hsplit _
  exact absurd (by rw [hsplit]; simp) h

theorem evaluateRPN_value_iff_witness :
    (∀ t ∈ ["8", "3", "-"], WellFormedNumber integerOps t ∨ isOperator t = true) ∧
      NoZeroDivision integerOps ["8", "3", "-"] ∧
      (((∃ v, evaluateRPN integerOps ["8", "3", "-"] = .ok v) ↔
          (NonemptyPrefixMoreNumbers ["8", "3", "-"] ∧ OneMoreNumber ["8", "3", "-"])) ∧
        (¬ (NonemptyPrefixMoreNumbers ["8", "3", "-"] ∧ OneMoreNumber ["8", "3", "-"]) →
          evaluateRPN integerOps ["8", "3", "-"] = .error .invalidRPN)) :=
  have hall : ∀ t ∈ ["8", "3", "-"], WellFormedNumber integerOps t ∨ isOperator t = true := by
    intro t ht
    simp only [List.mem_cons, List.mem_singleton, List.not_mem_nil, or_false] at ht
    rcases ht with rfl | rfl | rfl
    · exact Or.inl ⟨rfl, rfl⟩
    · exact Or.inl ⟨rfl, rfl⟩
    · exact Or.inr rfl
  have hnz : NoZeroDivision integerOps ["8", "3", "-"] :=
    noZeroDivision_of_no_divide integerOps _ (by decide)
  ⟨hall, hnz, evaluateRPN_value_iff integerOps ["8", "3", "-"] hall hnz⟩

end CalcGo
